import Mathlib

/-!
Shallow embedding of the phuketer bot core (`main.py`, `llm_manager.py`,
`analytics.py`) over `List Char` strings, with proofs of the specified
properties of the chunker, the text normalizer, the markdown converter,
the LLM fallback logic, the message handlers and the analytics store.
-/

namespace Phuketer

/-- Whitespace test matching Python's regex `\s` and `str.strip()` on the
ASCII range (the only characters the claims exercise). -/
def isSpace (c : Char) : Bool :=
  c = ' ' || c = '\t' || c = '\n' || c = '\r' || c = '\x0b' || c = '\x0c'

/-- Sentence-ending characters of the chunker regex `(?<=[\.\!\?])\s+`. -/
def isEnder (c : Char) : Bool :=
  c = '.' || c = '!' || c = '?'

/-- Python `text.split('\n')`. -/
def splitOnNl : List Char → List (List Char)
  | [] => [[]]
  | c :: rest =>
    if c = '\n' then [] :: splitOnNl rest
    else
      match splitOnNl rest with
      | [] => [[c]]
      | p :: ps => (c :: p) :: ps

/-- Scanner for `re.split(r'(?<=[\.\!\?])\s+', paragraph)`: `acc` holds the
piece being built, reversed, so its head is the character just before the
scan position; a maximal whitespace run is a separator exactly when that
previous character is a sentence ender. -/
def sentSplitAux : List Char → List Char → List (List Char)
  | acc, [] => [acc.reverse]
  | acc, c :: rest =>
    if isEnder (acc.headD ' ') && isSpace c then
      acc.reverse :: sentSplitAux [] (rest.dropWhile isSpace)
    else
      sentSplitAux (c :: acc) rest
termination_by acc l => l.length
decreasing_by
  · exact Nat.lt_succ_of_le (List.dropWhile_sublist _).length_le
  · exact Nat.lt_succ_self _

/-- Python `re.split(r'(?<=[\.\!\?])\s+', paragraph)`. -/
def sentSplit (s : List Char) : List (List Char) :=
  sentSplitAux [] s

/-- Python `str.lstrip()` (ASCII whitespace). -/
def lstrip (s : List Char) : List Char :=
  s.dropWhile isSpace

/-- Python `str.rstrip()` (ASCII whitespace). -/
def rstrip (s : List Char) : List Char :=
  (s.reverse.dropWhile isSpace).reverse

/-- Python `str.strip()` (ASCII whitespace). -/
def pystrip (s : List Char) : List Char :=
  rstrip (lstrip s)

/-- The hard-cut loop `while len(sent) > max_length` of `split_safely`:
returns the emitted fixed-size slices and the remaining sentence. (With
`m = 0` the Python loop would not terminate; the claims assume `m ≥ 1`,
and the guard `0 < m` makes the embedding total.) -/
def hardCut (sent : List Char) (m : Nat) : List (List Char) × List Char :=
  if h : m < sent.length ∧ 0 < m then
    (sent.take m :: (hardCut (sent.drop m) m).1, (hardCut (sent.drop m) m).2)
  else ([], sent)
termination_by sent.length
decreasing_by all_goals (simp only [List.length_drop]; omega)

/-- Flush of `current` performed by the first iteration of the hard-cut
loop (`if current: parts.append(current)` inside the `while`). -/
def flushLong (m : Nat) (st : List (List Char) × List Char) (sent : List Char) :
    List (List Char) :=
  if m < sent.length ∧ st.2 ≠ [] then st.1 ++ [st.2] else st.1

/-- Value of `current` after the hard-cut loop has (possibly) run. -/
def curAfter (m : Nat) (st : List (List Char) × List Char) (sent : List Char) :
    List Char :=
  if m < sent.length then [] else st.2

/-- Body of `for sent in sentences` in `split_safely`; the state is the pair
`(parts, current)`. Empty sentences are skipped; a long sentence first
flushes `current` and is hard-cut; the remainder is accumulated. -/
def stepSent (m : Nat) (st : List (List Char) × List Char) (sent : List Char) :
    List (List Char) × List Char :=
  if sent = [] then st
  else if m < (curAfter m st sent).length + (hardCut sent m).2.length + 1 then
    (if curAfter m st sent = [] then flushLong m st sent ++ (hardCut sent m).1
     else flushLong m st sent ++ (hardCut sent m).1 ++ [curAfter m st sent],
     (hardCut sent m).2)
  else
    (flushLong m st sent ++ (hardCut sent m).1,
     pystrip (curAfter m st sent ++ ' ' :: (hardCut sent m).2))

/-- The string `current + '\n' + paragraph` appended for a short paragraph
(`addition` in `split_safely`). -/
def paraAddition (st : List (List Char) × List Char) (para : List Char) :
    List Char :=
  if st.2 = [] then para else '\n' :: para

/-- Body of `for paragraph in paragraphs` in `split_safely`. -/
def stepPara (m : Nat) (st : List (List Char) × List Char) (para : List Char) :
    List (List Char) × List Char :=
  if m < para.length then
    (sentSplit para).foldl (stepSent m) st
  else if m < st.2.length + (paraAddition st para).length then
    (if st.2 = [] then st.1 else st.1 ++ [st.2], para)
  else
    (st.1, st.2 ++ paraAddition st para)

/-- `split_safely(text, max_length)` from `main.py`. -/
def split_safely (text : List Char) (m : Nat) : List (List Char) :=
  if text.length ≤ m then [text]
  else if ((splitOnNl text).foldl (stepPara m) ([], [])).2 = [] then
    ((splitOnNl text).foldl (stepPara m) ([], [])).1
  else
    ((splitOnNl text).foldl (stepPara m) ([], [])).1 ++
      [((splitOnNl text).foldl (stepPara m) ([], [])).2]

lemma length_lstrip_le (s : List Char) : (lstrip s).length ≤ s.length :=
  (List.dropWhile_sublist _).length_le

lemma length_rstrip_le (s : List Char) : (rstrip s).length ≤ s.length := by
  have h : (s.reverse.dropWhile isSpace).length ≤ s.reverse.length :=
    (List.dropWhile_sublist _).length_le
  simpa [rstrip] using h

lemma length_pystrip_le (s : List Char) : (pystrip s).length ≤ s.length :=
  le_trans (length_rstrip_le _) (length_lstrip_le _)

lemma hardCut_snd_length_le (sent : List Char) (m : Nat) (hm : 1 ≤ m) :
    (hardCut sent m).2.length ≤ m := by
  induction sent, m using hardCut.induct with
  | case1 sent m h ih =>
    rw [hardCut, dif_pos h]
    exact ih hm
  | case2 sent m h =>
    rw [hardCut, dif_neg h]
    simp only [not_and, Nat.not_lt] at h
    simp only
    omega

lemma hardCut_fst_length (sent : List Char) (m : Nat) :
    ∀ p ∈ (hardCut sent m).1, p.length = m := by
  induction sent, m using hardCut.induct with
  | case1 sent m h ih =>
    rw [hardCut, dif_pos h]
    intro p hp
    rcases List.mem_cons.mp hp with h1 | h1
    · subst h1
      simp only [List.length_take]
      omega
    · exact ih p h1
  | case2 sent m h =>
    rw [hardCut, dif_neg h]
    intro p hp
    simp at hp

/-- Invariant carried by the `(parts, current)` state of `split_safely`:
every flushed part and the current accumulator are within the bound. -/
def ChunkInv (m : Nat) (st : List (List Char) × List Char) : Prop :=
  (∀ p ∈ st.1, p.length ≤ m) ∧ st.2.length ≤ m

lemma flushLong_inv (m : Nat) (st : List (List Char) × List Char)
    (sent : List Char) (h : ChunkInv m st) :
    ∀ p ∈ flushLong m st sent, p.length ≤ m := by
  obtain ⟨h1, h2⟩ := h
  unfold flushLong
  split
  · intro p hp
    rcases List.mem_append.mp hp with h' | h'
    · exact h1 p h'
    · simp only [List.mem_singleton] at h'
      subst h'; exact h2
  · exact h1

lemma curAfter_le (m : Nat) (st : List (List Char) × List Char)
    (sent : List Char) (h : ChunkInv m st) : (curAfter m st sent).length ≤ m := by
  unfold curAfter
  split
  · simp
  · exact h.2

lemma stepSent_inv (m : Nat) (hm : 1 ≤ m) (st : List (List Char) × List Char)
    (sent : List Char) (h : ChunkInv m st) : ChunkInv m (stepSent m st sent) := by
  have hflush := flushLong_inv m st sent h
  have hcur := curAfter_le m st sent h
  have hpieces : ∀ p ∈ flushLong m st sent ++ (hardCut sent m).1, p.length ≤ m := by
    intro p hp
    rcases List.mem_append.mp hp with h' | h'
    · exact hflush p h'
    · exact le_of_eq (hardCut_fst_length sent m p h')
  unfold stepSent
  split
  · exact h
  split
  · rename_i hne hover
    refine ⟨?_, hardCut_snd_length_le sent m hm⟩
    split
    · exact hpieces
    · intro p hp
      rcases List.mem_append.mp hp with h' | h'
      · exact hpieces p h'
      · simp only [List.mem_singleton] at h'
        subst h'; exact hcur
  · rename_i hne hfit
    simp only [Nat.not_lt] at hfit
    refine ⟨hpieces, ?_⟩
    have hs := length_pystrip_le (curAfter m st sent ++ ' ' :: (hardCut sent m).2)
    simp only [List.length_append, List.length_cons] at hs
    simp only
    omega

lemma foldl_stepSent_inv (m : Nat) (hm : 1 ≤ m) (sents : List (List Char))
    (st : List (List Char) × List Char) (h : ChunkInv m st) :
    ChunkInv m (sents.foldl (stepSent m) st) := by
  induction sents generalizing st with
  | nil => exact h
  | cons s rest ih =>
    exact ih _ (stepSent_inv m hm st s h)

lemma stepPara_inv (m : Nat) (hm : 1 ≤ m) (st : List (List Char) × List Char)
    (para : List Char) (h : ChunkInv m st) : ChunkInv m (stepPara m st para) := by
  obtain ⟨h1, h2⟩ := h
  unfold stepPara
  split
  · exact foldl_stepSent_inv m hm _ st ⟨h1, h2⟩
  rename_i hshort
  simp only [Nat.not_lt] at hshort
  split
  · rename_i hover
    constructor
    · split
      · exact h1
      · intro p hp
        rcases List.mem_append.mp hp with h' | h'
        · exact h1 p h'
        · simp only [List.mem_singleton] at h'
          subst h'; exact h2
    · exact hshort
  · rename_i hfit
    simp only [Nat.not_lt] at hfit
    refine ⟨h1, ?_⟩
    simp only [List.length_append]
    omega

lemma foldl_stepPara_inv (m : Nat) (hm : 1 ≤ m) (paras : List (List Char))
    (st : List (List Char) × List Char) (h : ChunkInv m st) :
    ChunkInv m (paras.foldl (stepPara m) st) := by
  induction paras generalizing st with
  | nil => exact h
  | cons p rest ih =>
    exact ih _ (stepPara_inv m hm st p h)

/-- C1: for every string `s` and bound `m ≥ 1`, every chunk returned by
`split_safely s m` has length at most `m`, and every slice emitted by the
hard-cut loop (a single sentence longer than `m` cut into pieces) has
length exactly `m`. -/
theorem C1_split_safely_bound (s : List Char) (m : Nat) (hm : 1 ≤ m) :
    (∀ p ∈ split_safely s m, p.length ≤ m) ∧
    (∀ sent : List Char, ∀ p ∈ (hardCut sent m).1, p.length = m) := by
  refine ⟨?_, fun sent => hardCut_fst_length sent m⟩
  have hinv : ChunkInv m ((splitOnNl s).foldl (stepPara m) ([], [])) :=
    foldl_stepPara_inv m hm _ _ ⟨by simp, by simp⟩
  obtain ⟨h1, h2⟩ := hinv
  unfold split_safely
  split
  · rename_i hle
    intro p hp
    simp only [List.mem_singleton] at hp
    subst hp; exact hle
  split
  · exact h1
  · intro p hp
    rcases List.mem_append.mp hp with h' | h'
    · exact h1 p h'
    · simp only [List.mem_singleton] at h'
      subst h'; exact h2

/-- Witness for C1 at the concrete input `"abcd"` with bound `2`. -/
theorem C1_split_safely_bound_witness :
    (∀ p ∈ split_safely ([ 'a', 'b', 'c', 'd' ]) 2, p.length ≤ 2) ∧
    (∀ sent : List Char, ∀ p ∈ (hardCut sent 2).1, p.length = 2) :=
  C1_split_safely_bound ([ 'a', 'b', 'c', 'd' ]) 2 (by decide)

lemma splitOnNl_replicate (k : Nat) :
    splitOnNl (List.replicate k '\n') = List.replicate (k + 1) [] := by
  induction k with
  | zero => rfl
  | succ n ih =>
    simp [splitOnNl, List.replicate_succ, ih]

lemma stepPara_nil (m : Nat) : stepPara m ([], []) [] = ([], []) := by
  unfold stepPara paraAddition
  simp

lemma foldl_stepPara_empty (m : Nat) (n : Nat) :
    (List.replicate n ([] : List Char)).foldl (stepPara m) ([], []) = ([], []) := by
  induction n with
  | zero => rfl
  | succ k ih =>
    simp only [List.replicate_succ, List.foldl_cons, stepPara_nil, ih]

/-- C8: `split_safely` can return the empty list: an input made of `k > m`
newline characters yields zero chunks, while the empty string yields the
single-element list holding the empty chunk. -/
theorem C8_all_newlines_no_chunks (m k : Nat) (hm : 1 ≤ m) (hk : m < k) :
    split_safely (List.replicate k '\n') m = [] ∧
    split_safely [] m = [[]] := by
  constructor
  · unfold split_safely
    rw [if_neg (by simp; omega)]
    simp only [splitOnNl_replicate, foldl_stepPara_empty]
    simp
  · unfold split_safely
    rw [if_pos (by simp)]

/-- Witness for C8 at the concrete bound `1` and length `2`. -/
theorem C8_all_newlines_no_chunks_witness :
    split_safely (List.replicate 2 '\n') 1 = [] ∧
    split_safely [] 1 = [[]] :=
  C8_all_newlines_no_chunks 1 2 (by decide) (by decide)

lemma splitOnNl_no_nl (s : List Char) (h : '\n' ∉ s) : splitOnNl s = [s] := by
  induction s with
  | nil => rfl
  | cons c rest ih =>
    have hc : ¬c = '\n' := fun hc => h (hc ▸ List.mem_cons_self c rest)
    have hr : '\n' ∉ rest := fun hr => h (List.mem_cons_of_mem c hr)
    simp only [splitOnNl, if_neg hc, ih hr]

lemma dropWhile_eq_self_of_none (p : Char → Bool) (l : List Char)
    (h : ∀ c ∈ l, p c = false) : l.dropWhile p = l := by
  cases l with
  | nil => rfl
  | cons c rest =>
    rw [List.dropWhile_cons_of_neg]
    simp [h c (List.mem_cons_self c rest)]

lemma sentSplitAux_no_space (acc s : List Char)
    (h : ∀ c ∈ s, isSpace c = false) :
    sentSplitAux acc s = [acc.reverse ++ s] := by
  induction s generalizing acc with
  | nil => rw [sentSplitAux]; simp
  | cons c rest ih =>
    rw [sentSplitAux]
    have hc : isSpace c = false := h c (List.mem_cons_self c rest)
    rw [if_neg (by simp [hc])]
    rw [ih (c :: acc) (fun d hd => h d (List.mem_cons_of_mem c hd))]
    simp

lemma sentSplitAux_no_ender (acc s : List Char)
    (ha : ∀ c ∈ acc, isEnder c = false)
    (hs : ∀ c ∈ s, isEnder c = false) :
    sentSplitAux acc s = [acc.reverse ++ s] := by
  induction s generalizing acc with
  | nil => rw [sentSplitAux]; simp
  | cons c rest ih =>
    rw [sentSplitAux]
    have hh : isEnder (acc.headD ' ') = false := by
      cases acc with
      | nil => decide
      | cons a t => exact ha a (List.mem_cons_self a t)
    have hcond : (isEnder (acc.headD ' ') && isSpace c) ≠ true := by
      rw [hh]; simp
    rw [if_neg hcond]
    have hacc' : ∀ d ∈ c :: acc, isEnder d = false := by
      intro d hd
      rcases List.mem_cons.mp hd with h1 | h1
      · subst h1; exact hs _ (List.mem_cons_self _ _)
      · exact ha d h1
    rw [ih (c :: acc) hacc' (fun d hd => hs d (List.mem_cons_of_mem c hd))]
    simp

lemma hardCut_at_9000 (s : List Char) (h : s.length = 9000) :
    hardCut s 4000 =
      ([s.take 4000, (s.drop 4000).take 4000], s.drop 8000) := by
  have h1 : (s.drop 4000).length = 5000 := by simp [h]
  have h2 : ((s.drop 4000).drop 4000).length = 1000 := by simp [h]
  rw [hardCut, dif_pos ⟨by omega, by omega⟩]
  rw [hardCut, dif_pos ⟨by omega, by omega⟩]
  rw [hardCut, dif_neg (by omega)]
  simp [List.drop_drop]

lemma pystrip_all_space (s : List Char) (h : ∀ c ∈ s, isSpace c = true) :
    pystrip s = [] := by
  have : lstrip s = [] := List.dropWhile_eq_nil_iff.mpr h
  simp [pystrip, this, rstrip]

lemma pystrip_no_space (s : List Char) (h : ∀ c ∈ s, isSpace c = false) :
    pystrip s = s := by
  have h1 : lstrip s = s := dropWhile_eq_self_of_none _ _ h
  have h2 : s.reverse.dropWhile isSpace = s.reverse :=
    dropWhile_eq_self_of_none _ _ (by simpa using h)
  simp [pystrip, h1, rstrip, h2]

/-- Counterexample to C7: the string of 9000 space characters contains no
newline, yet `split_safely` with bound 4000 returns 2 chunks, not 3 (the
two hard-cut slices survive; the stripped remainder is empty and is never
flushed). -/
theorem C7_nine_thousand_cex :
    (List.replicate 9000 ' ').length = 9000 ∧
    '\n' ∉ List.replicate 9000 ' ' ∧
    (split_safely (List.replicate 9000 ' ') 4000).length = 2 := by
  have hlen : (List.replicate 9000 ' ' : List Char).length = 9000 :=
    List.length_replicate 9000 ' '
  have hnl : '\n' ∉ List.replicate 9000 ' ' := by
    intro hmem
    have := List.eq_of_mem_replicate hmem
    exact absurd this (by decide)
  refine ⟨hlen, hnl, ?_⟩
  have hne : (List.replicate 9000 ' ' : List Char) ≠ [] := by
    intro h
    rw [h] at hlen
    exact absurd hlen (by decide)
  have hsplit : splitOnNl (List.replicate 9000 ' ') = [List.replicate 9000 ' '] :=
    splitOnNl_no_nl _ hnl
  have hsent : sentSplit (List.replicate 9000 ' ') = [List.replicate 9000 ' '] := by
    unfold sentSplit
    rw [sentSplitAux_no_ender [] _ (by intro c hc; simp at hc) ?_]
    · rw [List.reverse_nil, List.nil_append]
    · intro c hc
      rw [List.eq_of_mem_replicate hc]
      decide
  have hhc : hardCut (List.replicate 9000 ' ') 4000 =
      ([List.replicate 4000 ' ', List.replicate 4000 ' '], List.replicate 1000 ' ') := by
    rw [hardCut_at_9000 _ hlen]
    rw [List.drop_replicate, List.take_replicate, List.drop_replicate,
      List.take_replicate]
    have e1 : min 4000 9000 = 4000 := by omega
    have e2 : 9000 - 4000 = 5000 := by omega
    have e3 : min 4000 5000 = 4000 := by omega
    have e4 : 9000 - 8000 = 1000 := by omega
    rw [e2, e1, e3, e4]
  have hstep : stepSent 4000 ([], []) (List.replicate 9000 ' ') =
      ([List.replicate 4000 ' ', List.replicate 4000 ' '], []) := by
    unfold stepSent
    rw [if_neg hne]
    have hcur : curAfter 4000 ([], []) (List.replicate 9000 ' ') = [] := by
      unfold curAfter
      rw [if_pos (by rw [hlen]; omega)]
    rw [hhc, hcur]
    rw [if_neg (by rw [List.length_nil, List.length_replicate]; omega)]
    have hps : pystrip (([] : List Char) ++ ' ' :: List.replicate 1000 ' ') = [] := by
      apply pystrip_all_space
      intro c hc
      rw [List.nil_append, List.mem_cons] at hc
      rcases hc with h | h
      · subst h; decide
      · rw [List.eq_of_mem_replicate h]; decide
    rw [hps]
    unfold flushLong
    rw [if_neg (fun h => h.2 rfl)]
    rw [List.nil_append]
  have hlt : 4000 < (List.replicate 9000 ' ' : List Char).length := by
    rw [hlen]; omega
  have hpara : stepPara 4000 ([], []) (List.replicate 9000 ' ') =
      ([List.replicate 4000 ' ', List.replicate 4000 ' '], []) := by
    unfold stepPara
    rw [if_pos hlt, hsent, List.foldl_cons, List.foldl_nil, hstep]
  have hguard : ¬((List.replicate 9000 ' ' : List Char).length ≤ 4000) := by
    rw [hlen]; omega
  have hfold : (splitOnNl (List.replicate 9000 ' ')).foldl (stepPara 4000) ([], []) =
      ([List.replicate 4000 ' ', List.replicate 4000 ' '], []) := by
    rw [hsplit, List.foldl_cons, List.foldl_nil, hpara]
  unfold split_safely
  rw [if_neg hguard, hfold]
  dsimp only
  rw [if_pos rfl]
  rfl

/-- C7 amended: for every string of length 9000 with no whitespace
characters (in particular no newlines and no sentence separators),
`split_safely` with bound 4000 falls through the
paragraph-then-sentence-then-hard-cut path and returns exactly 3 chunks,
each of length at most 4000. -/
theorem C7_nine_thousand_amended (s : List Char) (h9 : s.length = 9000)
    (hw : ∀ c ∈ s, isSpace c = false) :
    split_safely s 4000 = [s.take 4000, (s.drop 4000).take 4000, s.drop 8000] ∧
    (split_safely s 4000).length = 3 ∧
    (∀ p ∈ split_safely s 4000, p.length ≤ 4000) := by
  have hnl : '\n' ∉ s := by
    intro hmem
    have := hw _ hmem
    rw [isSpace] at this
    exact absurd this (by decide)
  have hne : s ≠ [] := by
    intro h
    rw [h] at h9
    exact absurd h9 (by decide)
  have hrest : (s.drop 8000).length = 1000 := by
    rw [List.length_drop, h9]
  have hrestmem : ∀ c ∈ s.drop 8000, isSpace c = false :=
    fun c hc => hw c (List.mem_of_mem_drop hc)
  have hrestne : s.drop 8000 ≠ [] := by
    intro h
    rw [h] at hrest
    exact absurd hrest (by decide)
  have hstep : stepSent 4000 ([], []) s =
      ([s.take 4000, (s.drop 4000).take 4000], s.drop 8000) := by
    unfold stepSent
    rw [if_neg hne]
    have hcur : curAfter 4000 ([], []) s = [] := by
      unfold curAfter
      rw [if_pos (by rw [h9]; omega)]
    rw [hardCut_at_9000 s h9, hcur]
    rw [if_neg (by rw [List.length_nil, hrest]; omega)]
    have hps : pystrip (([] : List Char) ++ ' ' :: s.drop 8000) = s.drop 8000 := by
      rw [List.nil_append]
      unfold pystrip lstrip
      rw [List.dropWhile_cons_of_pos (by decide)]
      rw [dropWhile_eq_self_of_none _ _ hrestmem]
      unfold rstrip
      rw [dropWhile_eq_self_of_none _ _ (by simpa using hrestmem)]
      rw [List.reverse_reverse]
    rw [hps]
    unfold flushLong
    rw [if_neg (fun h => h.2 rfl)]
    rw [List.nil_append]
  have hlt : 4000 < s.length := by rw [h9]; omega
  have hguard : ¬(s.length ≤ 4000) := by rw [h9]; omega
  have hsent : sentSplit s = [s] := by
    unfold sentSplit
    rw [sentSplitAux_no_space [] s hw, List.reverse_nil, List.nil_append]
  have hpara : stepPara 4000 ([], []) s =
      ([s.take 4000, (s.drop 4000).take 4000], s.drop 8000) := by
    unfold stepPara
    rw [if_pos hlt, hsent, List.foldl_cons, List.foldl_nil, hstep]
  have hfold : (splitOnNl s).foldl (stepPara 4000) ([], []) =
      ([s.take 4000, (s.drop 4000).take 4000], s.drop 8000) := by
    rw [splitOnNl_no_nl s hnl, List.foldl_cons, List.foldl_nil, hpara]
  have heq : split_safely s 4000 =
      [s.take 4000, (s.drop 4000).take 4000, s.drop 8000] := by
    unfold split_safely
    rw [if_neg hguard, hfold]
    dsimp only
    rw [if_neg hrestne]
    rfl
  refine ⟨heq, by rw [heq]; rfl, ?_⟩
  rw [heq]
  intro p hp
  rcases List.mem_cons.mp hp with h1 | h1
  · subst h1
    rw [List.length_take, h9]
    omega
  rcases List.mem_cons.mp h1 with h2 | h2
  · subst h2
    rw [List.length_take, List.length_drop, h9]
    omega
  rcases List.mem_cons.mp h2 with h3 | h3
  · subst h3
    rw [hrest]
    omega
  · simp at h3

/-- Witness for the amended C7 at the concrete input of 9000 letters. -/
theorem C7_nine_thousand_amended_witness :
    split_safely (List.replicate 9000 'a') 4000 =
      [(List.replicate 9000 'a').take 4000,
       ((List.replicate 9000 'a').drop 4000).take 4000,
       (List.replicate 9000 'a').drop 8000] ∧
    (split_safely (List.replicate 9000 'a') 4000).length = 3 ∧
    (∀ p ∈ split_safely (List.replicate 9000 'a') 4000, p.length ≤ 4000) :=
  C7_nine_thousand_amended (List.replicate 9000 'a') (List.length_replicate 9000 'a')
    (fun c hc => by rw [List.eq_of_mem_replicate hc]; decide)

/-- Generic embedding of `re.sub(pattern, repl, text)` for patterns that
consume at least one character: `M` reports, at each position, either
`none` (no match starting here) or the replacement text together with the
rest of the input after the match. Scanning is leftmost, non-overlapping,
resuming after each match, exactly like `re.sub`. -/
def scanSub (M : List Char → Option (List Char × List Char))
    (hM : ∀ s rep r, M s = some (rep, r) → r <:+ s ∧ r.length < s.length) :
    List Char → List Char
  | [] => []
  | c :: t =>
    match h : M (c :: t) with
    | some (rep, r) => rep ++ scanSub M hM r
    | none => c :: scanSub M hM t
termination_by s => s.length
decreasing_by
  · exact (hM _ _ _ h).2
  · exact Nat.lt_succ_self _

lemma scanSub_cons_some (M : List Char → Option (List Char × List Char))
    (hM : ∀ s rep r, M s = some (rep, r) → r <:+ s ∧ r.length < s.length)
    (c : Char) (t rep r : List Char) (h : M (c :: t) = some (rep, r)) :
    scanSub M hM (c :: t) = rep ++ scanSub M hM r := by
  rw [scanSub]
  split
  · rename_i rep' r' h'
    rw [h] at h'
    cases h'
    rfl
  · rename_i h'
    rw [h] at h'
    cases h'

lemma scanSub_cons_none (M : List Char → Option (List Char × List Char))
    (hM : ∀ s rep r, M s = some (rep, r) → r <:+ s ∧ r.length < s.length)
    (c : Char) (t : List Char) (h : M (c :: t) = none) :
    scanSub M hM (c :: t) = c :: scanSub M hM t := by
  rw [scanSub]
  split
  · rename_i rep' r' h'
    rw [h] at h'
    cases h'
  · rfl

lemma scanSub_nil (M : List Char → Option (List Char × List Char))
    (hM : ∀ s rep r, M s = some (rep, r) → r <:+ s ∧ r.length < s.length) :
    scanSub M hM [] = [] := by
  rw [scanSub]

lemma scanSub_eq_self (M : List Char → Option (List Char × List Char))
    (hM : ∀ s rep r, M s = some (rep, r) → r <:+ s ∧ r.length < s.length)
    (s : List Char) (h : ∀ t, t <:+ s → M t = none) : scanSub M hM s = s := by
  induction s with
  | nil => exact scanSub_nil M hM
  | cons c t ih =>
    rw [scanSub_cons_none M hM c t (h _ (List.suffix_refl _))]
    rw [ih (fun t' ht' => h t' (ht'.trans (List.suffix_cons c t)))]

lemma scanSub_mem_aux (M : List Char → Option (List Char × List Char))
    (hM : ∀ s rep r, M s = some (rep, r) → r <:+ s ∧ r.length < s.length) :
    ∀ n (s : List Char), s.length ≤ n → ∀ c, c ∈ scanSub M hM s →
      c ∈ s ∨ ∃ t rep r, t <:+ s ∧ M t = some (rep, r) ∧ c ∈ rep := by
  intro n
  induction n with
  | zero =>
    intro s hs c hc
    have hnil : s = [] := List.length_eq_zero.mp (Nat.le_zero.mp hs)
    subst hnil
    rw [scanSub_nil] at hc
    simp at hc
  | succ n ih =>
    intro s hs c hc
    cases s with
    | nil =>
      rw [scanSub_nil] at hc
      simp at hc
    | cons a t =>
      rcases h : M (a :: t) with _ | ⟨rep, r⟩
      · rw [scanSub_cons_none M hM a t h] at hc
        rcases List.mem_cons.mp hc with h1 | h1
        · exact Or.inl (h1 ▸ List.mem_cons_self a t)
        · have ht : t.length ≤ n := by
            simp only [List.length_cons] at hs; omega
          rcases ih t ht c h1 with h2 | ⟨u, rep, r, hu, hM', hc'⟩
          · exact Or.inl (List.mem_cons_of_mem a h2)
          · exact Or.inr ⟨u, rep, r, hu.trans (List.suffix_cons a t), hM', hc'⟩
      · rw [scanSub_cons_some M hM a t rep r h] at hc
        rcases List.mem_append.mp hc with h1 | h1
        · exact Or.inr ⟨a :: t, rep, r, List.suffix_refl _, h, h1⟩
        · obtain ⟨hsuf, hlt⟩ := hM _ _ _ h
          have hr : r.length ≤ n := by
            simp only [List.length_cons] at hs hlt; omega
          rcases ih r hr c h1 with h2 | ⟨u, rep', r', hu, hM', hc'⟩
          · exact Or.inl (hsuf.subset h2)
          · exact Or.inr ⟨u, rep', r', hu.trans hsuf, hM', hc'⟩

lemma scanSub_mem (M : List Char → Option (List Char × List Char))
    (hM : ∀ s rep r, M s = some (rep, r) → r <:+ s ∧ r.length < s.length)
    (s : List Char) (c : Char) (hc : c ∈ scanSub M hM s) :
    c ∈ s ∨ ∃ t rep r, t <:+ s ∧ M t = some (rep, r) ∧ c ∈ rep :=
  scanSub_mem_aux M hM s.length s (Nat.le_refl _) c hc

/-- Matcher for the tag-stripping regex `</?[^>]+>` of `html_to_plain`: a
`<`, then a nonempty run of non-`>` characters (the optional `/` is part of
the run), then `>`. -/
def tryTag : List Char → Option (List Char × List Char)
  | [] => none
  | c :: rest =>
    if c = '<' then
      if rest.takeWhile (fun d => d ≠ '>') = [] then none
      else
        match rest.dropWhile (fun d => d ≠ '>') with
        | [] => none
        | _ :: r => some ([], r)
    else none

lemma tryTag_sound (s rep r : List Char) (h : tryTag s = some (rep, r)) :
    r <:+ s ∧ r.length < s.length := by
  cases s with
  | nil => simp [tryTag] at h
  | cons c rest =>
    simp only [tryTag] at h
    split at h
    · split at h
      · exact Option.noConfusion h
      · split at h
        · exact Option.noConfusion h
        · rename_i hd r' heq
          rw [Option.some.injEq, Prod.mk.injEq] at h
          obtain ⟨hrep, hr⟩ := h
          subst hr
          have h1 : r' <:+ rest.dropWhile (fun d => d ≠ '>') := by
            rw [heq]; exact List.suffix_cons hd r'
          have h2 : r' <:+ rest := h1.trans (List.dropWhile_suffix _)
          exact ⟨h2.trans (List.suffix_cons c rest),
            Nat.lt_succ_of_le h2.length_le⟩
    · exact Option.noConfusion h

/-- Matcher for the newline-collapsing regex `\n{3,}` of `html_to_plain`:
three newlines followed greedily by the rest of the run. -/
def tryNl : List Char → Option (List Char × List Char)
  | c1 :: c2 :: c3 :: rest =>
    if c1 = '\n' ∧ c2 = '\n' ∧ c3 = '\n' then
      some (['\n', '\n'], rest.dropWhile (fun d => d = '\n'))
    else none
  | _ => none

lemma tryNl_sound (s rep r : List Char) (h : tryNl s = some (rep, r)) :
    r <:+ s ∧ r.length < s.length := by
  cases s with
  | nil => simp [tryNl] at h
  | cons c1 s1 =>
    cases s1 with
    | nil => simp [tryNl] at h
    | cons c2 s2 =>
      cases s2 with
      | nil => simp [tryNl] at h
      | cons c3 rest =>
        simp only [tryNl] at h
        split at h
        · rw [Option.some.injEq, Prod.mk.injEq] at h
          obtain ⟨hrep, hr⟩ := h
          subst hr
          have h2 : rest.dropWhile (fun d => d = '\n') <:+ rest :=
            List.dropWhile_suffix _
          refine ⟨(h2.trans (List.suffix_cons c3 rest)).trans
            ((List.suffix_cons c2 _).trans (List.suffix_cons c1 _)), ?_⟩
          have := h2.length_le
          simp only [List.length_cons]
          omega
        · exact Option.noConfusion h

/-- Matcher for `<br\s*/?>` (IGNORECASE) of `html_to_plain`. -/
def tryBr : List Char → Option (List Char × List Char)
  | c1 :: c2 :: c3 :: rest =>
    if c1 = '<' ∧ (c2 = 'b' ∨ c2 = 'B') ∧ (c3 = 'r' ∨ c3 = 'R') then
      match rest.dropWhile isSpace with
      | [] => none
      | d :: t =>
        if d = '>' then some (['\n'], t)
        else if d = '/' then
          match t with
          | [] => none
          | e :: t2 => if e = '>' then some (['\n'], t2) else none
        else none
    else none
  | _ => none

lemma tryBr_sound (s rep r : List Char) (h : tryBr s = some (rep, r)) :
    r <:+ s ∧ r.length < s.length := by
  cases s with
  | nil => simp [tryBr] at h
  | cons c1 s1 =>
    cases s1 with
    | nil => simp [tryBr] at h
    | cons c2 s2 =>
      cases s2 with
      | nil => simp [tryBr] at h
      | cons c3 rest =>
        simp only [tryBr] at h
        split at h
        · split at h
          · exact Option.noConfusion h
          · rename_i d t heq
            split at h
            · rw [Option.some.injEq, Prod.mk.injEq] at h
              obtain ⟨hrep, hr⟩ := h
              subst hr
              have h1 : t <:+ rest.dropWhile isSpace := by
                rw [heq]; exact List.suffix_cons d t
              have h2 : t <:+ rest := h1.trans (List.dropWhile_suffix _)
              refine ⟨(h2.trans (List.suffix_cons c3 rest)).trans
                ((List.suffix_cons c2 _).trans (List.suffix_cons c1 _)), ?_⟩
              have := h2.length_le
              simp only [List.length_cons]
              omega
            · split at h
              · cases t with
                | nil => exact Option.noConfusion h
                | cons e t2 =>
                  dsimp only at h
                  split at h
                  · rw [Option.some.injEq, Prod.mk.injEq] at h
                    obtain ⟨hrep, hr⟩ := h
                    subst hr
                    have h1 : t2 <:+ rest.dropWhile isSpace := by
                      rw [heq]
                      exact (List.suffix_cons e t2).trans (List.suffix_cons d _)
                    have h2 : t2 <:+ rest := h1.trans (List.dropWhile_suffix _)
                    refine ⟨(h2.trans (List.suffix_cons c3 rest)).trans
                      ((List.suffix_cons c2 _).trans (List.suffix_cons c1 _)), ?_⟩
                    have := h2.length_le
                    simp only [List.length_cons]
                    omega
                  · exact Option.noConfusion h
              · exact Option.noConfusion h
        · exact Option.noConfusion h

/-- Matcher for `</p\s*>` (IGNORECASE) of `html_to_plain`. -/
def tryPClose : List Char → Option (List Char × List Char)
  | c1 :: c2 :: c3 :: rest =>
    if c1 = '<' ∧ c2 = '/' ∧ (c3 = 'p' ∨ c3 = 'P') then
      match rest.dropWhile isSpace with
      | [] => none
      | d :: t => if d = '>' then some (['\n', '\n'], t) else none
    else none
  | _ => none

lemma tryPClose_sound (s rep r : List Char) (h : tryPClose s = some (rep, r)) :
    r <:+ s ∧ r.length < s.length := by
  cases s with
  | nil => simp [tryPClose] at h
  | cons c1 s1 =>
    cases s1 with
    | nil => simp [tryPClose] at h
    | cons c2 s2 =>
      cases s2 with
      | nil => simp [tryPClose] at h
      | cons c3 rest =>
        simp only [tryPClose] at h
        split at h
        · split at h
          · exact Option.noConfusion h
          · rename_i d t heq
            split at h
            · rw [Option.some.injEq, Prod.mk.injEq] at h
              obtain ⟨hrep, hr⟩ := h
              subst hr
              have h1 : t <:+ rest.dropWhile isSpace := by
                rw [heq]; exact List.suffix_cons d t
              have h2 : t <:+ rest := h1.trans (List.dropWhile_suffix _)
              refine ⟨(h2.trans (List.suffix_cons c3 rest)).trans
                ((List.suffix_cons c2 _).trans (List.suffix_cons c1 _)), ?_⟩
              have := h2.length_le
              simp only [List.length_cons]
              omega
            · exact Option.noConfusion h
        · exact Option.noConfusion h

/-- Matcher for `<p\s*>` (IGNORECASE) of `html_to_plain`. -/
def tryPOpen : List Char → Option (List Char × List Char)
  | c1 :: c2 :: rest =>
    if c1 = '<' ∧ (c2 = 'p' ∨ c2 = 'P') then
      match rest.dropWhile isSpace with
      | [] => none
      | d :: t => if d = '>' then some ([], t) else none
    else none
  | _ => none

lemma tryPOpen_sound (s rep r : List Char) (h : tryPOpen s = some (rep, r)) :
    r <:+ s ∧ r.length < s.length := by
  cases s with
  | nil => simp [tryPOpen] at h
  | cons c1 s1 =>
    cases s1 with
    | nil => simp [tryPOpen] at h
    | cons c2 rest =>
      simp only [tryPOpen] at h
      split at h
      · split at h
        · exact Option.noConfusion h
        · rename_i d t heq
          split at h
          · rw [Option.some.injEq, Prod.mk.injEq] at h
            obtain ⟨hrep, hr⟩ := h
            subst hr
            have h1 : t <:+ rest.dropWhile isSpace := by
              rw [heq]; exact List.suffix_cons d t
            have h2 : t <:+ rest := h1.trans (List.dropWhile_suffix _)
            refine ⟨(h2.trans (List.suffix_cons c2 rest)).trans
              (List.suffix_cons c1 _), ?_⟩
            have := h2.length_le
            simp only [List.length_cons]
            omega
          · exact Option.noConfusion h
      · exact Option.noConfusion h

/-- Case-sensitive literal-prefix consumption, used by the alternation
`(?:b|i|u|em|strong|span|code|pre|blockquote|tt)`. -/
def dropExact : List Char → List Char → Option (List Char)
  | [], s => some s
  | _ :: _, [] => none
  | p :: ps, c :: cs => if c = p then dropExact ps cs else none

lemma dropExact_suffix (p : List Char) :
    ∀ s r, dropExact p s = some r → r <:+ s := by
  induction p with
  | nil =>
    intro s r h
    rw [dropExact, Option.some.injEq] at h
    subst h
    exact List.suffix_refl _
  | cons q ps ih =>
    intro s r h
    cases s with
    | nil => exact Option.noConfusion h
    | cons c cs =>
      simp only [dropExact] at h
      split at h
      · exact (ih cs r h).trans (List.suffix_cons c cs)
      · exact Option.noConfusion h

/-- Case-insensitive literal-prefix consumption (the pattern is given in
lowercase), used for the IGNORECASE parts of the anchor regex. -/
def dropCI : List Char → List Char → Option (List Char)
  | [], s => some s
  | _ :: _, [] => none
  | p :: ps, c :: cs => if c.toLower = p then dropCI ps cs else none

lemma dropCI_suffix (p : List Char) :
    ∀ s r, dropCI p s = some r → r <:+ s := by
  induction p with
  | nil =>
    intro s r h
    rw [dropCI, Option.some.injEq] at h
    subst h
    exact List.suffix_refl _
  | cons q ps ih =>
    intro s r h
    cases s with
    | nil => exact Option.noConfusion h
    | cons c cs =>
      simp only [dropCI] at h
      split at h
      · exact (ih cs r h).trans (List.suffix_cons c cs)
      · exact Option.noConfusion h

/-- The alternation body of the inline-tag regex
`</?(?:b|i|u|em|strong|span|code|pre|blockquote|tt)>` (compiled with
`re.IGNORECASE` in the source, hence the case-insensitive `dropCI` against
the lowercase alternatives), tried left to right; each alternative must be
followed immediately by `>`. -/
def tryAlts : List (List Char) → List Char → Option (List Char)
  | [], _ => none
  | alt :: alts, s =>
    match dropCI alt s with
    | some rest =>
      match rest with
      | [] => tryAlts alts s
      | d :: t => if d = '>' then some t else tryAlts alts s
    | none => tryAlts alts s

lemma tryAlts_sound (alts : List (List Char)) :
    ∀ s r, tryAlts alts s = some r → r <:+ s ∧ r.length < s.length := by
  induction alts with
  | nil =>
    intro s r h
    exact Option.noConfusion h
  | cons alt alts ih =>
    intro s r h
    simp only [tryAlts] at h
    split at h
    · rename_i rest heq
      cases rest with
      | nil => exact ih s r h
      | cons d t =>
        dsimp only at h
        split at h
        · rw [Option.some.injEq] at h
          subst h
          have h2 : d :: t <:+ s := dropCI_suffix alt s _ heq
          have h1 : t <:+ s := (List.suffix_cons d t).trans h2
          refine ⟨h1, ?_⟩
          have := h2.length_le
          simp only [List.length_cons] at this
          omega
        · exact ih s r h
    · exact ih s r h

/-- Tag names recognized by the inline-strip regex of `html_to_plain`,
in alternation order. -/
def inlineTags : List (List Char) :=
  [['b'], ['i'], ['u'], ['e', 'm'], ['s', 't', 'r', 'o', 'n', 'g'],
   ['s', 'p', 'a', 'n'], ['c', 'o', 'd', 'e'], ['p', 'r', 'e'],
   ['b', 'l', 'o', 'c', 'k', 'q', 'u', 'o', 't', 'e'], ['t', 't']]

/-- Matcher for `</?(?:b|i|u|em|strong|span|code|pre|blockquote|tt)>`
(with `re.IGNORECASE`) of `html_to_plain`. -/
def tryInline : List Char → Option (List Char × List Char)
  | [] => none
  | c :: rest =>
    if c = '<' then
      match rest with
      | [] => none
      | d :: t =>
        if d = '/' then
          match tryAlts inlineTags t with
          | some r => some ([], r)
          | none => none
        else
          match tryAlts inlineTags rest with
          | some r => some ([], r)
          | none => none
    else none

lemma tryInline_sound (s rep r : List Char) (h : tryInline s = some (rep, r)) :
    r <:+ s ∧ r.length < s.length := by
  cases s with
  | nil => exact Option.noConfusion h
  | cons c rest =>
    simp only [tryInline] at h
    split at h
    · cases rest with
      | nil => exact Option.noConfusion h
      | cons d t =>
        dsimp only at h
        split at h
        · split at h
          · rename_i r' heq
            rw [Option.some.injEq, Prod.mk.injEq] at h
            obtain ⟨hrep, rfl⟩ := h
            obtain ⟨h1, h2⟩ := tryAlts_sound inlineTags t r' heq
            refine ⟨(h1.trans (List.suffix_cons d t)).trans
              (List.suffix_cons c (d :: t)), ?_⟩
            simp only [List.length_cons]
            omega
          · exact Option.noConfusion h
        · split at h
          · rename_i r' heq
            rw [Option.some.injEq, Prod.mk.injEq] at h
            obtain ⟨hrep, rfl⟩ := h
            obtain ⟨h1, h2⟩ := tryAlts_sound inlineTags (d :: t) r' heq
            refine ⟨h1.trans (List.suffix_cons c (d :: t)), ?_⟩
            simp only [List.length_cons] at h2 ⊢
            omega
          · exact Option.noConfusion h
    · exact Option.noConfusion h

/-- Recognizer for the closing-anchor literal `/a>` (IGNORECASE) right
after a `<`. -/
def isCloseA : List Char → Bool
  | d :: e :: f :: _ => d = '/' && (e = 'a' || e = 'A') && f = '>'
  | _ => false

/-- Scanner for the lazy `(.*?)</a>` (IGNORECASE, DOTALL) part of the
anchor regex: finds the first closing `</a>` and returns the label before
it together with the rest after it. -/
def findCloseA : List Char → Option (List Char × List Char)
  | [] => none
  | c :: rest =>
    if c = '<' && isCloseA rest then some ([], rest.drop 3)
    else
      match findCloseA rest with
      | some (lab, r) => some (c :: lab, r)
      | none => none

lemma findCloseA_sound (s : List Char) :
    ∀ lab r, findCloseA s = some (lab, r) → r <:+ s ∧ r.length < s.length := by
  induction s with
  | nil =>
    intro lab r h
    exact Option.noConfusion h
  | cons c rest ih =>
    intro lab r h
    simp only [findCloseA] at h
    split at h
    · rw [Option.some.injEq, Prod.mk.injEq] at h
      obtain ⟨hlab, rfl⟩ := h
      have h1 : rest.drop 3 <:+ rest := List.drop_suffix 3 rest
      refine ⟨h1.trans (List.suffix_cons c rest), ?_⟩
      have := h1.length_le
      simp only [List.length_cons]
      omega
    · split at h
      · rename_i lab2 r2 heq
        rw [Option.some.injEq, Prod.mk.injEq] at h
        obtain ⟨hlab, rfl⟩ := h
        obtain ⟨h1, h2⟩ := ih lab2 r2 heq
        refine ⟨h1.trans (List.suffix_cons c rest), ?_⟩
        simp only [List.length_cons]
        omega
      · exact Option.noConfusion h

/-- Matcher for `ANCHOR_RE`, the regex
`<a\s+href="([^"]+)">(.*?)</a>` (IGNORECASE, DOTALL) of `html_to_plain`;
the replacement is `label (url)`. -/
def tryAnchor : List Char → Option (List Char × List Char)
  | [] => none
  | c :: rest =>
    if c = '<' then
      match dropCI ['a'] rest with
      | none => none
      | some r1 =>
        if r1.takeWhile isSpace = [] then none
        else
          match dropCI (['h', 'r', 'e', 'f', '=', '"']) (r1.dropWhile isSpace) with
          | none => none
          | some r2 =>
            if r2.takeWhile (fun d => d ≠ '"') = [] then none
            else
              match r2.dropWhile (fun d => d ≠ '"') with
              | [] => none
              | _ :: r3 =>
                match r3 with
                | [] => none
                | g :: r4 =>
                  if g = '>' then
                    match findCloseA r4 with
                    | none => none
                    | some (lab, r5) =>
                      some (lab ++ ' ' :: '(' ::
                        (r2.takeWhile (fun d => d ≠ '"') ++ [')']), r5)
                  else none
    else none

lemma tryAnchor_sound (s rep r : List Char) (h : tryAnchor s = some (rep, r)) :
    r <:+ s ∧ r.length < s.length := by
  cases s with
  | nil => exact Option.noConfusion h
  | cons c rest =>
    simp only [tryAnchor] at h
    split at h
    · split at h
      · exact Option.noConfusion h
      · rename_i r1 heq1
        split at h
        · exact Option.noConfusion h
        · split at h
          · exact Option.noConfusion h
          · rename_i r2 heq2
            split at h
            · exact Option.noConfusion h
            · split at h
              · exact Option.noConfusion h
              · rename_i hd r3 heq3
                cases r3 with
                | nil => exact Option.noConfusion h
                | cons g r4 =>
                  dsimp only at h
                  split at h
                  · split at h
                    · exact Option.noConfusion h
                    · rename_i lab r5 heq5
                      rw [Option.some.injEq, Prod.mk.injEq] at h
                      obtain ⟨hrep, rfl⟩ := h
                      obtain ⟨h5, h5l⟩ := findCloseA_sound r4 lab r5 heq5
                      have h34 : r4 <:+ r2 := by
                        have hsfx : hd :: g :: r4 <:+ r2 := by
                          rw [← heq3]; exact List.dropWhile_suffix _
                        exact ((List.suffix_cons g r4).trans
                          (List.suffix_cons hd _)).trans hsfx
                      have h2 : r2 <:+ r1 :=
                        (dropCI_suffix _ _ _ heq2).trans (List.dropWhile_suffix _)
                      have h1 : r1 <:+ rest := dropCI_suffix _ _ _ heq1
                      have hsuf : r5 <:+ rest := ((h5.trans h34).trans h2).trans h1
                      refine ⟨hsuf.trans (List.suffix_cons c rest), ?_⟩
                      have := hsuf.length_le
                      simp only [List.length_cons]
                      omega
                  · exact Option.noConfusion h
    · exact Option.noConfusion h

/-- Pass 1 of `html_to_plain`: `ANCHOR_RE.sub(lambda m: f"{m.group(2)} ({m.group(1)})", text)`. -/
def anchorSub : List Char → List Char :=
  scanSub tryAnchor tryAnchor_sound

/-- Pass 2 of `html_to_plain`: `re.sub(r'<br\s*/?>', '\n', text)`. -/
def brSub : List Char → List Char :=
  scanSub tryBr tryBr_sound

/-- Pass 3 of `html_to_plain`: `re.sub(r'</p\s*>', '\n\n', text)`. -/
def pCloseSub : List Char → List Char :=
  scanSub tryPClose tryPClose_sound

/-- Pass 4 of `html_to_plain`: `re.sub(r'<p\s*>', '', text)`. -/
def pOpenSub : List Char → List Char :=
  scanSub tryPOpen tryPOpen_sound

/-- Pass 5 of `html_to_plain`: the inline-tag strip. -/
def inlineSub : List Char → List Char :=
  scanSub tryInline tryInline_sound

/-- Pass 6 of `html_to_plain`: `re.sub(r'</?[^>]+>', '', text)`. -/
def tagSub : List Char → List Char :=
  scanSub tryTag tryTag_sound

/-- Pass 7 of `html_to_plain`: `re.sub(r'\n{3,}', '\n\n', text)`. -/
def nlSub : List Char → List Char :=
  scanSub tryNl tryNl_sound

/-- `html_to_plain` from `main.py`: anchors to `label (url)`, `<br>` to a
newline, `</p>` to a blank line, `<p>` dropped, inline tags dropped, any
remaining tag dropped, 3+ newlines collapsed to 2, then `strip()`. -/
def html_to_plain (text : List Char) : List Char :=
  pystrip (nlSub (tagSub (inlineSub (pOpenSub (pCloseSub (brSub
    (anchorSub text)))))))

/-- Structural property of the output of the generic tag-strip pass: every
`<` is either immediately followed by `>` or has no `>` anywhere after it,
so no tag-shaped pattern (`<` then a nonempty `>`-free body then `>`) can
match anywhere. -/
def NoTag : List Char → Prop
  | [] => True
  | c :: rest => (c = '<' → rest.head? = some '>' ∨ '>' ∉ rest) ∧ NoTag rest

lemma noTag_nil : NoTag [] := trivial

lemma noTag_cons (c : Char) (rest : List Char)
    (h1 : c = '<' → rest.head? = some '>' ∨ '>' ∉ rest) (h2 : NoTag rest) :
    NoTag (c :: rest) := ⟨h1, h2⟩

lemma noTag_suffix (s t : List Char) (h : NoTag s) (ht : t <:+ s) : NoTag t := by
  obtain ⟨u, rfl⟩ := ht
  induction u with
  | nil => exact h
  | cons a u ih => exact ih h.2

lemma dropWhile_head_false (p : Char → Bool) :
    ∀ (l : List Char) (c : Char) (r : List Char),
      l.dropWhile p = c :: r → p c = false := by
  intro l
  induction l with
  | nil =>
    intro c r h
    exact List.noConfusion h
  | cons a t ih =>
    intro c r h
    rw [List.dropWhile_cons] at h
    split at h
    · exact ih c r h
    · rename_i hpa
      cases h
      exact Bool.of_not_eq_true hpa

/-- Skeleton shared by all the tag-shaped matchers: a matcher that fires
only at `<`, always consumes a later `>`, and fails on `<>` returns `none`
everywhere on a `NoTag` string. -/
lemma none_of_noTag (try_ : List Char → Option (List Char × List Char))
    (hfacts : ∀ c rest p, try_ (c :: rest) = some p → c = '<' ∧ '>' ∈ rest)
    (hgt : ∀ r, try_ ('<' :: '>' :: r) = none)
    (hnil : try_ [] = none)
    (s : List Char) (h : NoTag s) : try_ s = none := by
  cases s with
  | nil => exact hnil
  | cons c rest =>
    rcases hX : try_ (c :: rest) with _ | p
    · rfl
    · exfalso
      obtain ⟨hc, hgtm⟩ := hfacts c rest p hX
      subst hc
      rcases h.1 rfl with hh | hh
      · cases rest with
        | nil => exact Option.noConfusion hh
        | cons d r2 =>
          rw [List.head?_cons, Option.some.injEq] at hh
          subst hh
          rw [hgt r2] at hX
          exact Option.noConfusion hX
      · exact hh hgtm


lemma tryTag_facts (c : Char) (rest : List Char) (p : List Char × List Char)
    (h : tryTag (c :: rest) = some p) : c = '<' ∧ '>' ∈ rest := by
  simp only [tryTag] at h
  split at h
  · rename_i hc
    refine ⟨hc, ?_⟩
    split at h
    · exact Option.noConfusion h
    · split at h
      · exact Option.noConfusion h
      · rename_i hd r2 heq
        have hfalse := dropWhile_head_false _ rest hd r2 heq
        have hdgt : hd = '>' := by simpa using hfalse
        subst hdgt
        have hmem : '>' ∈ rest.dropWhile (fun d => d ≠ '>') := by
          rw [heq]; exact List.mem_cons_self _ _
        exact (List.dropWhile_sublist _).subset hmem
  · exact Option.noConfusion h

lemma tryTag_gt (r : List Char) : tryTag ('<' :: '>' :: r) = none := by rfl

lemma tryBr_facts (c : Char) (rest : List Char) (p : List Char × List Char)
    (h : tryBr (c :: rest) = some p) : c = '<' ∧ '>' ∈ rest := by
  cases rest with
  | nil => simp [tryBr] at h
  | cons c2 s2 =>
    cases s2 with
    | nil => simp [tryBr] at h
    | cons c3 rest2 =>
      simp only [tryBr] at h
      split at h
      · rename_i hcond
        refine ⟨hcond.1, ?_⟩
        split at h
        · exact Option.noConfusion h
        · rename_i d t heq
          have hsfx : d :: t <:+ rest2 := by
            rw [← heq]; exact List.dropWhile_suffix _
          split at h
          · rename_i hd
            subst hd
            exact List.mem_cons_of_mem c2 (List.mem_cons_of_mem c3
              (hsfx.subset (List.mem_cons_self _ _)))
          · split at h
            · cases t with
              | nil => exact Option.noConfusion h
              | cons e t2 =>
                dsimp only at h
                split at h
                · rename_i he
                  subst he
                  exact List.mem_cons_of_mem c2 (List.mem_cons_of_mem c3
                    (hsfx.subset (List.mem_cons_of_mem d (List.mem_cons_self _ _))))
                · exact Option.noConfusion h
            · exact Option.noConfusion h
      · exact Option.noConfusion h

lemma tryBr_gt (r : List Char) : tryBr ('<' :: '>' :: r) = none := by
  cases r with
  | nil => rfl
  | cons c3 r2 => rfl

lemma tryPClose_facts (c : Char) (rest : List Char) (p : List Char × List Char)
    (h : tryPClose (c :: rest) = some p) : c = '<' ∧ '>' ∈ rest := by
  cases rest with
  | nil => simp [tryPClose] at h
  | cons c2 s2 =>
    cases s2 with
    | nil => simp [tryPClose] at h
    | cons c3 rest2 =>
      simp only [tryPClose] at h
      split at h
      · rename_i hcond
        refine ⟨hcond.1, ?_⟩
        split at h
        · exact Option.noConfusion h
        · rename_i d t heq
          have hsfx : d :: t <:+ rest2 := by
            rw [← heq]; exact List.dropWhile_suffix _
          split at h
          · rename_i hd
            subst hd
            exact List.mem_cons_of_mem c2 (List.mem_cons_of_mem c3
              (hsfx.subset (List.mem_cons_self _ _)))
          · exact Option.noConfusion h
      · exact Option.noConfusion h

lemma tryPClose_gt (r : List Char) : tryPClose ('<' :: '>' :: r) = none := by
  cases r with
  | nil => rfl
  | cons c3 r2 => rfl

lemma tryPOpen_facts (c : Char) (rest : List Char) (p : List Char × List Char)
    (h : tryPOpen (c :: rest) = some p) : c = '<' ∧ '>' ∈ rest := by
  cases rest with
  | nil => simp [tryPOpen] at h
  | cons c2 rest2 =>
    simp only [tryPOpen] at h
    split at h
    · rename_i hcond
      refine ⟨hcond.1, ?_⟩
      split at h
      · exact Option.noConfusion h
      · rename_i d t heq
        have hsfx : d :: t <:+ rest2 := by
          rw [← heq]; exact List.dropWhile_suffix _
        split at h
        · rename_i hd
          subst hd
          exact List.mem_cons_of_mem c2 (hsfx.subset (List.mem_cons_self _ _))
        · exact Option.noConfusion h
    · exact Option.noConfusion h

lemma tryPOpen_gt (r : List Char) : tryPOpen ('<' :: '>' :: r) = none := by rfl

lemma tryAlts_gtmem (alts : List (List Char)) :
    ∀ s r, tryAlts alts s = some r → '>' ∈ s := by
  induction alts with
  | nil =>
    intro s r h
    exact Option.noConfusion h
  | cons alt alts ih =>
    intro s r h
    simp only [tryAlts] at h
    split at h
    · rename_i rest heq
      cases rest with
      | nil => exact ih s r h
      | cons d t =>
        dsimp only at h
        split at h
        · rename_i hd
          subst hd
          exact (dropCI_suffix alt s _ heq).subset (List.mem_cons_self _ _)
        · exact ih s r h
    · exact ih s r h

lemma tryInline_facts (c : Char) (rest : List Char) (p : List Char × List Char)
    (h : tryInline (c :: rest) = some p) : c = '<' ∧ '>' ∈ rest := by
  simp only [tryInline] at h
  split at h
  · rename_i hc
    refine ⟨hc, ?_⟩
    cases rest with
    | nil => exact Option.noConfusion h
    | cons d t =>
      dsimp only at h
      split at h
      · split at h
        · rename_i r2 heq
          exact List.mem_cons_of_mem d (tryAlts_gtmem inlineTags t r2 heq)
        · exact Option.noConfusion h
      · split at h
        · rename_i r2 heq
          exact tryAlts_gtmem inlineTags (d :: t) r2 heq
        · exact Option.noConfusion h
  · exact Option.noConfusion h

lemma tryAlts_inline_gt (r : List Char) :
    tryAlts inlineTags ('>' :: r) = none := by rfl

lemma tryInline_gt (r : List Char) : tryInline ('<' :: '>' :: r) = none := by
  simp [tryInline, tryAlts_inline_gt]

lemma tryAnchor_facts (c : Char) (rest : List Char) (p : List Char × List Char)
    (h : tryAnchor (c :: rest) = some p) : c = '<' ∧ '>' ∈ rest := by
  simp only [tryAnchor] at h
  split at h
  · rename_i hc
    refine ⟨hc, ?_⟩
    split at h
    · exact Option.noConfusion h
    · rename_i r1 heq1
      split at h
      · exact Option.noConfusion h
      · split at h
        · exact Option.noConfusion h
        · rename_i r2 heq2
          split at h
          · exact Option.noConfusion h
          · split at h
            · exact Option.noConfusion h
            · rename_i hd r3 heq3
              cases r3 with
              | nil => exact Option.noConfusion h
              | cons g r4 =>
                dsimp only at h
                split at h
                · rename_i hg
                  subst hg
                  have hm1 : '>' ∈ r2.dropWhile (fun d => d ≠ '"') := by
                    rw [heq3]
                    exact List.mem_cons_of_mem hd (List.mem_cons_self _ _)
                  have hm2 : '>' ∈ r2 := (List.dropWhile_sublist _).subset hm1
                  have hm3 : '>' ∈ r1.dropWhile isSpace :=
                    (dropCI_suffix _ _ _ heq2).subset hm2
                  have hm4 : '>' ∈ r1 := (List.dropWhile_sublist _).subset hm3
                  exact (dropCI_suffix _ _ _ heq1).subset hm4
                · exact Option.noConfusion h
  · exact Option.noConfusion h

lemma tryAnchor_gt (r : List Char) : tryAnchor ('<' :: '>' :: r) = none := by rfl


lemma tryTag_rep (s : List Char) (rep r : List Char)
    (h : tryTag s = some (rep, r)) : rep = [] := by
  cases s with
  | nil => exact Option.noConfusion h
  | cons c rest =>
    simp only [tryTag] at h
    split at h
    · split at h
      · exact Option.noConfusion h
      · split at h
        · exact Option.noConfusion h
        · rw [Option.some.injEq, Prod.mk.injEq] at h
          exact h.1.symm
    · exact Option.noConfusion h

lemma tryNl_rep (s : List Char) (rep r : List Char)
    (h : tryNl s = some (rep, r)) : rep = ['\n', '\n'] := by
  cases s with
  | nil => exact Option.noConfusion h
  | cons c1 s1 =>
    cases s1 with
    | nil => exact Option.noConfusion h
    | cons c2 s2 =>
      cases s2 with
      | nil => exact Option.noConfusion h
      | cons c3 rest =>
        simp only [tryNl] at h
        split at h
        · rw [Option.some.injEq, Prod.mk.injEq] at h
          exact h.1.symm
        · exact Option.noConfusion h

lemma mem_tagSub (s : List Char) (c : Char) (hc : c ∈ tagSub s) : c ∈ s := by
  rcases scanSub_mem tryTag tryTag_sound s c hc with h | ⟨t, rep, r, ht, hM, hcrep⟩
  · exact h
  · rw [tryTag_rep t rep r hM] at hcrep
    simp at hcrep

lemma mem_nlSub (s : List Char) (c : Char) (hc : c ∈ nlSub s) :
    c ∈ s ∨ c = '\n' := by
  rcases scanSub_mem tryNl tryNl_sound s c hc with h | ⟨t, rep, r, ht, hM, hcrep⟩
  · exact Or.inl h
  · rw [tryNl_rep t rep r hM] at hcrep
    right
    rcases List.mem_cons.mp hcrep with h1 | h1
    · exact h1
    · simpa using h1

lemma tryTag_none_cases (t : List Char) (h : tryTag ('<' :: t) = none) :
    t = [] ∨ (∃ t2, t = '>' :: t2) ∨ '>' ∉ t := by
  simp only [tryTag, if_true] at h
  split at h
  · rename_i htw
    cases t with
    | nil => exact Or.inl rfl
    | cons d t2 =>
      rw [List.takeWhile_cons] at htw
      split at htw
      · exact absurd htw (by simp)
      · rename_i hd
        have hdgt : d = '>' := by simpa using hd
        exact Or.inr (Or.inl ⟨t2, by rw [hdgt]⟩)
  · split at h
    · rename_i hdw
      refine Or.inr (Or.inr ?_)
      intro hgt
      have := List.dropWhile_eq_nil_iff.mp hdw _ hgt
      simp at this
    · exact Option.noConfusion h

lemma tryNl_none_of_head (c : Char) (u : List Char) (hc : ¬c = '\n') :
    tryNl (c :: u) = none := by
  cases u with
  | nil => rfl
  | cons d u2 =>
    cases u2 with
    | nil => rfl
    | cons e u3 =>
      simp [tryNl, hc]

lemma noTag_tagSub_aux :
    ∀ n (s : List Char), s.length ≤ n → NoTag (tagSub s) := by
  intro n
  induction n with
  | zero =>
    intro s hs
    have hnil : s = [] := List.length_eq_zero.mp (Nat.le_zero.mp hs)
    subst hnil
    unfold tagSub
    rw [scanSub_nil]
    exact trivial
  | succ n ih =>
    intro s hs
    cases s with
    | nil =>
      unfold tagSub
      rw [scanSub_nil]
      exact trivial
    | cons a t =>
      unfold tagSub
      rcases h : tryTag (a :: t) with _ | ⟨rep, r⟩
      · rw [scanSub_cons_none _ _ _ _ h]
        have ht : t.length ≤ n := by
          simp only [List.length_cons] at hs; omega
        have hrec : NoTag (scanSub tryTag tryTag_sound t) := by
          have := ih t ht
          unfold tagSub at this
          exact this
        refine ⟨?_, hrec⟩
        intro ha
        subst ha
        rcases tryTag_none_cases t h with h1 | ⟨t2, rfl⟩ | h1
        · subst h1
          right
          rw [scanSub_nil]
          simp
        · left
          have hnone : tryTag ('>' :: t2) = none := by rfl
          rw [scanSub_cons_none _ _ _ _ hnone]
          rfl
        · right
          intro hgt
          exact h1 (mem_tagSub t '>' hgt)
      · rw [scanSub_cons_some _ _ _ _ rep r h]
        rw [tryTag_rep _ _ _ h, List.nil_append]
        have hlen : r.length ≤ n := by
          have hlt := (tryTag_sound _ _ _ h).2
          simp only [List.length_cons] at hs hlt
          omega
        have := ih r hlen
        unfold tagSub at this
        exact this

lemma noTag_tagSub (s : List Char) : NoTag (tagSub s) :=
  noTag_tagSub_aux s.length s (Nat.le_refl _)

lemma noTag_nlSub_aux :
    ∀ n (s : List Char), s.length ≤ n → NoTag s → NoTag (nlSub s) := by
  intro n
  induction n with
  | zero =>
    intro s hs hnt
    have hnil : s = [] := List.length_eq_zero.mp (Nat.le_zero.mp hs)
    subst hnil
    unfold nlSub
    rw [scanSub_nil]
    exact trivial
  | succ n ih =>
    intro s hs hnt
    cases s with
    | nil =>
      unfold nlSub
      rw [scanSub_nil]
      exact trivial
    | cons a t =>
      obtain ⟨h1, h2⟩ := hnt
      unfold nlSub
      rcases h : tryNl (a :: t) with _ | ⟨rep, r⟩
      · rw [scanSub_cons_none _ _ _ _ h]
        have ht : t.length ≤ n := by
          simp only [List.length_cons] at hs; omega
        have hrec : NoTag (scanSub tryNl tryNl_sound t) := by
          have := ih t ht h2
          unfold nlSub at this
          exact this
        refine ⟨?_, hrec⟩
        intro ha
        rcases h1 ha with hh | hh
        · cases t with
          | nil => exact Option.noConfusion hh
          | cons d t2 =>
            rw [List.head?_cons, Option.some.injEq] at hh
            subst hh
            left
            rw [scanSub_cons_none _ _ _ _ (tryNl_none_of_head '>' t2 (by decide))]
            rfl
        · right
          intro hgt
          rcases mem_nlSub t '>' hgt with hm | hm
          · exact hh hm
          · exact absurd hm (by decide)
      · rw [scanSub_cons_some _ _ _ _ rep r h]
        rw [tryNl_rep _ _ _ h]
        have hlen : r.length ≤ n := by
          have hlt := (tryNl_sound _ _ _ h).2
          simp only [List.length_cons] at hs hlt
          omega
        have hsub : NoTag r :=
          noTag_suffix (a :: t) r ⟨h1, h2⟩ (tryNl_sound _ _ _ h).1
        have hrec : NoTag (scanSub tryNl tryNl_sound r) := by
          have := ih r hlen hsub
          unfold nlSub at this
          exact this
        exact ⟨fun hc => absurd hc (by decide),
          fun hc => absurd hc (by decide), hrec⟩

lemma noTag_nlSub (s : List Char) (h : NoTag s) : NoTag (nlSub s) :=
  noTag_nlSub_aux s.length s (Nat.le_refl _) h

lemma rstrip_decomp (s : List Char) :
    s = rstrip s ++ (s.reverse.takeWhile isSpace).reverse ∧
      ∀ c ∈ (s.reverse.takeWhile isSpace).reverse, isSpace c = true := by
  constructor
  · conv_lhs => rw [← s.reverse_reverse]
    rw [← List.takeWhile_append_dropWhile isSpace s.reverse]
    rw [List.reverse_append]
    rw [List.takeWhile_append_dropWhile]
    rfl
  · intro c hc
    rw [List.mem_reverse] at hc
    exact List.mem_takeWhile_imp hc

lemma noTag_append_right (xs ys : List Char) (h : NoTag (xs ++ ys))
    (hgt : '>' ∉ ys) : NoTag xs := by
  induction xs with
  | nil => exact trivial
  | cons a xs ih =>
    obtain ⟨h1, h2⟩ := h
    refine ⟨?_, ih h2⟩
    intro ha
    rcases h1 ha with hh | hh
    · cases xs with
      | nil =>
        right
        intro hmem
        simp at hmem
      | cons b xs2 =>
        left
        have hb : b = '>' := Option.some.inj hh
        rw [List.head?_cons, hb]
    · right
      intro hmem
      exact hh (List.mem_append.mpr (Or.inl hmem))

lemma noTag_pystrip (s : List Char) (h : NoTag s) : NoTag (pystrip s) := by
  have hl : NoTag (lstrip s) :=
    noTag_suffix s (lstrip s) h (List.dropWhile_suffix _)
  obtain ⟨hdec, hsp⟩ := rstrip_decomp (lstrip s)
  have hgt : '>' ∉ ((lstrip s).reverse.takeWhile isSpace).reverse := by
    intro hmem
    have := hsp _ hmem
    simp [isSpace] at this
  exact noTag_append_right _ _ (hdec ▸ hl) hgt


/-- Recognizer for a string beginning with three newlines (the shape of a
`\n{3,}` match). -/
def startsTriple : List Char → Bool
  | c :: d :: e :: _ => c = '\n' && (d = '\n' && e = '\n')
  | _ => false

/-- Recognizer for a string beginning with two newlines. -/
def startsDouble : List Char → Bool
  | c :: d :: _ => c = '\n' && d = '\n'
  | _ => false

/-- Whether the string contains three consecutive newlines anywhere, i.e.
whether `\n{3,}` still matches. -/
def hasTriple : List Char → Bool
  | [] => false
  | c :: rest => startsTriple (c :: rest) || hasTriple rest

lemma startsTriple_iff (l : List Char) :
    startsTriple l = true ↔ ∃ w, l = '\n' :: '\n' :: '\n' :: w := by
  cases l with
  | nil => simp [startsTriple]
  | cons c l1 =>
    cases l1 with
    | nil => simp [startsTriple]
    | cons d l2 =>
      cases l2 with
      | nil => simp [startsTriple]
      | cons e w =>
        simp only [startsTriple, Bool.and_eq_true, decide_eq_true_eq]
        constructor
        · rintro ⟨hc, hd, he⟩
          exact ⟨w, by rw [hc, hd, he]⟩
        · rintro ⟨w2, hw⟩
          injection hw with h1 hw
          injection hw with h2 hw
          injection hw with h3 hw
          exact ⟨h1, h2, h3⟩

lemma startsDouble_iff (l : List Char) :
    startsDouble l = true ↔ ∃ w, l = '\n' :: '\n' :: w := by
  cases l with
  | nil => simp [startsDouble]
  | cons c l1 =>
    cases l1 with
    | nil => simp [startsDouble]
    | cons d w =>
      simp only [startsDouble, Bool.and_eq_true, decide_eq_true_eq]
      constructor
      · rintro ⟨hc, hd⟩
        exact ⟨w, by rw [hc, hd]⟩
      · rintro ⟨w2, hw⟩
        injection hw with h1 hw
        injection hw with h2 hw
        exact ⟨h1, h2⟩

lemma hasTriple_cons (c : Char) (rest : List Char) :
    hasTriple (c :: rest) = (startsTriple (c :: rest) || hasTriple rest) := by
  rw [hasTriple]

lemma tryNl_some_shape (s : List Char) (rep r : List Char)
    (h : tryNl s = some (rep, r)) : ∃ u, s = '\n' :: '\n' :: '\n' :: u := by
  cases s with
  | nil => exact Option.noConfusion h
  | cons c1 s1 =>
    cases s1 with
    | nil => exact Option.noConfusion h
    | cons c2 s2 =>
      cases s2 with
      | nil => exact Option.noConfusion h
      | cons c3 rest =>
        simp only [tryNl] at h
        split at h
        · rename_i hcond
          exact ⟨rest, by rw [hcond.1, hcond.2.1, hcond.2.2]⟩
        · exact Option.noConfusion h

lemma tryNl_triple (u : List Char) :
    tryNl ('\n' :: '\n' :: '\n' :: u) =
      some (['\n', '\n'], u.dropWhile (fun d => d = '\n')) := by
  simp [tryNl]

lemma head?_nlSub (u : List Char) (d : Char)
    (h : (nlSub u).head? = some d) : u.head? = some d := by
  cases u with
  | nil =>
    unfold nlSub at h
    rw [scanSub_nil] at h
    exact Option.noConfusion h
  | cons c v =>
    rcases htry : tryNl (c :: v) with _ | ⟨rep, r⟩
    · unfold nlSub at h
      rw [scanSub_cons_none _ _ _ _ htry, List.head?_cons] at h
      rw [List.head?_cons]
      exact h
    · obtain ⟨u2, hshape⟩ := tryNl_some_shape _ _ _ htry
      unfold nlSub at h
      rw [scanSub_cons_some _ _ _ _ _ _ htry, tryNl_rep _ _ _ htry] at h
      have hd : d = '\n' := by
        rw [List.cons_append, List.head?_cons, Option.some.injEq] at h
        exact h.symm
      rw [List.cons.injEq] at hshape
      rw [List.head?_cons, hshape.1, hd]

lemma startsDouble_nlSub (u : List Char)
    (h : startsDouble (nlSub u) = true) : startsDouble u = true := by
  cases u with
  | nil =>
    unfold nlSub at h
    rw [scanSub_nil] at h
    exact absurd h (by decide)
  | cons c v =>
    rcases htry : tryNl (c :: v) with _ | ⟨rep, r⟩
    · unfold nlSub at h
      rw [scanSub_cons_none _ _ _ _ htry] at h
      rcases (startsDouble_iff _).mp h with ⟨w, hw⟩
      rw [List.cons.injEq] at hw
      obtain ⟨hc, htail⟩ := hw
      have hv : v.head? = some '\n' := by
        apply head?_nlSub
        show (scanSub tryNl tryNl_sound v).head? = some '\n'
        rw [htail, List.head?_cons]
      cases v with
      | nil => exact Option.noConfusion hv
      | cons d w2 =>
        rw [List.head?_cons, Option.some.injEq] at hv
        rw [(startsDouble_iff _)]
        exact ⟨w2, by rw [hc, hv]⟩
    · obtain ⟨u2, hshape⟩ := tryNl_some_shape _ _ _ htry
      rw [hshape, (startsDouble_iff _)]
      exact ⟨'\n' :: u2, rfl⟩

lemma hasTriple_nlSub_aux :
    ∀ n (s : List Char), s.length ≤ n → hasTriple (nlSub s) = false := by
  intro n
  induction n with
  | zero =>
    intro s hs
    have hnil : s = [] := List.length_eq_zero.mp (Nat.le_zero.mp hs)
    subst hnil
    unfold nlSub
    rw [scanSub_nil]
    rfl
  | succ n ih =>
    intro s hs
    cases s with
    | nil =>
      unfold nlSub
      rw [scanSub_nil]
      rfl
    | cons a t =>
      rcases htry : tryNl (a :: t) with _ | ⟨rep, r⟩
      · unfold nlSub
        rw [scanSub_cons_none _ _ _ _ htry]
        have ht : t.length ≤ n := by
          simp only [List.length_cons] at hs; omega
        have hrec : hasTriple (scanSub tryNl tryNl_sound t) = false := by
          have := ih t ht
          unfold nlSub at this
          exact this
        rw [hasTriple_cons, hrec, Bool.or_false]
        by_contra hst
        rw [Bool.not_eq_false] at hst
        rcases (startsTriple_iff _).mp hst with ⟨w, hw⟩
        rw [List.cons.injEq] at hw
        obtain ⟨ha, htail⟩ := hw
        have hsd : startsDouble t = true := by
          apply startsDouble_nlSub
          show startsDouble (scanSub tryNl tryNl_sound t) = true
          rw [htail]
          rfl
        rcases (startsDouble_iff _).mp hsd with ⟨w2, hw2⟩
        rw [ha, hw2, tryNl_triple] at htry
        exact Option.noConfusion htry
      · obtain ⟨u2, hshape⟩ := tryNl_some_shape _ _ _ htry
        unfold nlSub
        rw [scanSub_cons_some _ _ _ _ _ _ htry, tryNl_rep _ _ _ htry]
        have hlen : r.length ≤ n := by
          have hlt := (tryNl_sound _ _ _ htry).2
          simp only [List.length_cons] at hs hlt
          omega
        have hrec : hasTriple (scanSub tryNl tryNl_sound r) = false := by
          have := ih r hlen
          unfold nlSub at this
          exact this
        have hrhead : ∀ d, (scanSub tryNl tryNl_sound r).head? = some d → ¬d = '\n' := by
          intro d hd
          have hr : r.head? = some d := by
            apply head?_nlSub
            exact hd
          have hreq : tryNl (a :: t) = some (rep, r) := htry
          rw [hshape, tryNl_triple, Option.some.injEq, Prod.mk.injEq] at hreq
          cases r with
          | nil => exact Option.noConfusion hr
          | cons e r2 =>
            rw [List.head?_cons, Option.some.injEq] at hr
            subst hr
            have := dropWhile_head_false (fun x => x = '\n') u2 e r2 hreq.2
            intro hdnl
            rw [hdnl] at this
            simp at this
        rw [List.cons_append, List.cons_append, List.nil_append]
        rw [hasTriple_cons]
        rw [hasTriple_cons]
        rw [hrec, Bool.or_false]
        have h1 : startsTriple ('\n' :: '\n' :: scanSub tryNl tryNl_sound r) = false := by
          by_contra hst
          rw [Bool.not_eq_false] at hst
          rcases (startsTriple_iff _).mp hst with ⟨w, hw⟩
          have : (scanSub tryNl tryNl_sound r).head? = some '\n' := by
            rw [List.cons.injEq, List.cons.injEq] at hw
            rw [hw.2.2, List.head?_cons]
          exact hrhead '\n' this rfl
        have h2 : startsTriple ('\n' :: scanSub tryNl tryNl_sound r) = false := by
          by_contra hst
          rw [Bool.not_eq_false] at hst
          rcases (startsTriple_iff _).mp hst with ⟨w, hw⟩
          have : (scanSub tryNl tryNl_sound r).head? = some '\n' := by
            rw [List.cons.injEq] at hw
            rw [hw.2, List.head?_cons]
          exact hrhead '\n' this rfl
        rw [h1, h2]
        rfl

lemma hasTriple_nlSub (s : List Char) : hasTriple (nlSub s) = false :=
  hasTriple_nlSub_aux s.length s (Nat.le_refl _)


lemma hasTriple_suffix_mono (t s : List Char) (ht : t <:+ s)
    (h : hasTriple t = true) : hasTriple s = true := by
  obtain ⟨u, rfl⟩ := ht
  induction u with
  | nil => exact h
  | cons a u ih =>
    rw [List.cons_append, hasTriple_cons, ih, Bool.or_true]

lemma startsTriple_append (xs ys : List Char) (h : startsTriple xs = true) :
    startsTriple (xs ++ ys) = true := by
  rcases (startsTriple_iff _).mp h with ⟨w, rfl⟩
  rw [startsTriple_iff]
  exact ⟨w ++ ys, by simp⟩

lemma hasTriple_prefix_mono (xs ys : List Char) (h : hasTriple xs = true) :
    hasTriple (xs ++ ys) = true := by
  induction xs with
  | nil => exact absurd h (by decide)
  | cons a xs ih =>
    rw [hasTriple_cons] at h
    rw [List.cons_append, hasTriple_cons]
    rcases (Bool.or_eq_true _ _).mp h with h1 | h1
    · rw [← List.cons_append, startsTriple_append (a :: xs) ys h1, Bool.true_or]
    · rw [ih h1, Bool.or_true]

lemma nlSub_eq_self (s : List Char) (h : hasTriple s = false) : nlSub s = s := by
  unfold nlSub
  apply scanSub_eq_self
  intro t ht
  rcases htry : tryNl t with _ | ⟨rep, r⟩
  · rfl
  · exfalso
    obtain ⟨u, hu⟩ := tryNl_some_shape _ _ _ htry
    subst hu
    have h1 : hasTriple ('\n' :: '\n' :: '\n' :: u) = true := by
      rw [hasTriple_cons]
      have hst : startsTriple ('\n' :: '\n' :: '\n' :: u) = true := by
        rw [startsTriple_iff]
        exact ⟨u, rfl⟩
      rw [hst, Bool.true_or]
    have h2 := hasTriple_suffix_mono _ s ht h1
    rw [h] at h2
    exact Bool.noConfusion h2

lemma hasTriple_pystrip (s : List Char) (h : hasTriple s = false) :
    hasTriple (pystrip s) = false := by
  have hl : hasTriple (lstrip s) = false := by
    by_contra hcon
    rw [Bool.not_eq_false] at hcon
    have h2 := hasTriple_suffix_mono (lstrip s) s (List.dropWhile_suffix _) hcon
    rw [h] at h2
    exact Bool.noConfusion h2
  obtain ⟨hdec, hsp⟩ := rstrip_decomp (lstrip s)
  by_contra hcon
  rw [Bool.not_eq_false] at hcon
  have hcon2 : hasTriple (rstrip (lstrip s)) = true := hcon
  have h2 := hasTriple_prefix_mono (rstrip (lstrip s))
    (((lstrip s).reverse.takeWhile isSpace).reverse) hcon2
  rw [← hdec, hl] at h2
  exact Bool.noConfusion h2

lemma dropWhile_idem (p : Char → Bool) (l : List Char) :
    (l.dropWhile p).dropWhile p = l.dropWhile p := by
  rcases hdw : l.dropWhile p with _ | ⟨c, r⟩
  · rfl
  · have hf := dropWhile_head_false p l c r hdw
    rw [List.dropWhile_cons_of_neg (by simp [hf])]

lemma lstrip_idem (s : List Char) : lstrip (lstrip s) = lstrip s :=
  dropWhile_idem isSpace s

lemma rstrip_idem (s : List Char) : rstrip (rstrip s) = rstrip s := by
  show ((((s.reverse.dropWhile isSpace).reverse).reverse).dropWhile isSpace).reverse =
    rstrip s
  rw [List.reverse_reverse, dropWhile_idem]
  rfl

lemma lstrip_rstrip_lstrip (s : List Char) :
    lstrip (rstrip (lstrip s)) = rstrip (lstrip s) := by
  obtain ⟨hdec, hsp⟩ := rstrip_decomp (lstrip s)
  rcases hr : rstrip (lstrip s) with _ | ⟨c, r⟩
  · rfl
  · have hX := hdec
    rw [hr, List.cons_append] at hX
    have hc : isSpace c = false :=
      dropWhile_head_false isSpace s c
        (r ++ ((lstrip s).reverse.takeWhile isSpace).reverse) hX
    show lstrip (c :: r) = c :: r
    unfold lstrip
    rw [List.dropWhile_cons_of_neg (by simp [hc])]

lemma pystrip_idem (s : List Char) : pystrip (pystrip s) = pystrip s := by
  show rstrip (lstrip (rstrip (lstrip s))) = rstrip (lstrip s)
  rw [lstrip_rstrip_lstrip s, rstrip_idem]

lemma anchorSub_eq_self (s : List Char) (h : NoTag s) : anchorSub s = s := by
  unfold anchorSub
  apply scanSub_eq_self
  intro t ht
  exact none_of_noTag tryAnchor tryAnchor_facts tryAnchor_gt rfl t
    (noTag_suffix s t h ht)

lemma brSub_eq_self (s : List Char) (h : NoTag s) : brSub s = s := by
  unfold brSub
  apply scanSub_eq_self
  intro t ht
  exact none_of_noTag tryBr tryBr_facts tryBr_gt rfl t (noTag_suffix s t h ht)

lemma pCloseSub_eq_self (s : List Char) (h : NoTag s) : pCloseSub s = s := by
  unfold pCloseSub
  apply scanSub_eq_self
  intro t ht
  exact none_of_noTag tryPClose tryPClose_facts tryPClose_gt rfl t
    (noTag_suffix s t h ht)

lemma pOpenSub_eq_self (s : List Char) (h : NoTag s) : pOpenSub s = s := by
  unfold pOpenSub
  apply scanSub_eq_self
  intro t ht
  exact none_of_noTag tryPOpen tryPOpen_facts tryPOpen_gt rfl t
    (noTag_suffix s t h ht)

lemma inlineSub_eq_self (s : List Char) (h : NoTag s) : inlineSub s = s := by
  unfold inlineSub
  apply scanSub_eq_self
  intro t ht
  exact none_of_noTag tryInline tryInline_facts tryInline_gt rfl t
    (noTag_suffix s t h ht)

lemma tagSub_eq_self (s : List Char) (h : NoTag s) : tagSub s = s := by
  unfold tagSub
  apply scanSub_eq_self
  intro t ht
  exact none_of_noTag tryTag tryTag_facts tryTag_gt rfl t (noTag_suffix s t h ht)

/-- C5: `html_to_plain` is idempotent: a second pass over its output finds
no anchor, `<br>`, `<p>`, `</p>`, inline tag, generic tag, triple newline
or surrounding whitespace left to rewrite. -/
theorem C5_html_to_plain_idempotent (x : List Char) :
    html_to_plain (html_to_plain x) = html_to_plain x := by
  have hNT : NoTag (html_to_plain x) :=
    noTag_pystrip _ (noTag_nlSub _ (noTag_tagSub _))
  have hHT : hasTriple (html_to_plain x) = false :=
    hasTriple_pystrip _ (hasTriple_nlSub _)
  have h8 : pystrip (html_to_plain x) = html_to_plain x := by
    show pystrip (pystrip (nlSub (tagSub (inlineSub (pOpenSub (pCloseSub
      (brSub (anchorSub x)))))))) = html_to_plain x
    rw [pystrip_idem]
    rfl
  show pystrip (nlSub (tagSub (inlineSub (pOpenSub (pCloseSub (brSub
    (anchorSub (html_to_plain x)))))))) = html_to_plain x
  rw [anchorSub_eq_self _ hNT, brSub_eq_self _ hNT, pCloseSub_eq_self _ hNT,
    pOpenSub_eq_self _ hNT, inlineSub_eq_self _ hNT, tagSub_eq_self _ hNT,
    nlSub_eq_self _ hHT, h8]


/-- Fuel-bounded re.sub scanner used for the markdown converter. Every
matcher consumes at least one character per step, so fuel equal to the
input length is always sufficient; the fuel only serves to make the
recursion structural (and hence computable by the kernel). -/
def scanSubF (M : List Char → Option (List Char × List Char)) :
    Nat → List Char → List Char
  | 0, s => s
  | _ + 1, [] => []
  | fuel + 1, c :: t =>
    match M (c :: t) with
    | some (rep, r) => rep ++ scanSubF M fuel r
    | none => c :: scanSubF M fuel t

/-- Scanner for the url part `(.*?)\)` of the link regex: the url runs up
to the first `)`. -/
def splitAtParen (r : List Char) : Option (List Char × List Char) :=
  match r.dropWhile (fun d => d ≠ ')') with
  | [] => none
  | _ :: t => some (r.takeWhile (fun d => d ≠ ')'), t)

/-- Scanner for the lazy `(.*?)\]\((.*?)\)` tail of the link regex
`\[(.*?)\]\((.*?)\)`: finds the first `](` that is followed by a closed
`)` group (the lazy label backtracks past a `](` whose url part never
closes), returning label, url and the rest. -/
def findLink : List Char → Option (List Char × List Char × List Char)
  | [] => none
  | c :: rest =>
    if c = ']' then
      match rest with
      | [] => none
      | d :: r =>
        if d = '(' then
          match splitAtParen r with
          | some (url, t) => some ([], url, t)
          | none =>
            match findLink rest with
            | some (lab, url, t) => some (c :: lab, url, t)
            | none => none
        else
          match findLink rest with
          | some (lab, url, t) => some (c :: lab, url, t)
          | none => none
    else
      match findLink rest with
      | some (lab, url, t) => some (c :: lab, url, t)
      | none => none

/-- Matcher for `\[(.*?)\]\((.*?)\)` with replacement
`<a href="\2">\1</a>` (first substitution of `_convert_markdown_to_html`). -/
def tryLink : List Char → Option (List Char × List Char)
  | [] => none
  | c :: rest =>
    if c = '[' then
      match findLink rest with
      | some (lab, url, t) =>
        some ('<' :: 'a' :: ' ' :: 'h' :: 'r' :: 'e' :: 'f' :: '=' :: '"' ::
          (url ++ '"' :: '>' :: (lab ++ ['<', '/', 'a', '>'])), t)
      | none => none
    else none

/-- Scanner for the lazy `(.*?)\*\*` tail of the bold regex: finds the
first `**`. -/
def findDStar : List Char → Option (List Char × List Char)
  | [] => none
  | c :: rest =>
    if c = '*' then
      match rest with
      | [] => none
      | d :: r =>
        if d = '*' then some ([], r)
        else
          match findDStar rest with
          | some (lab, t) => some (c :: lab, t)
          | none => none
    else
      match findDStar rest with
      | some (lab, t) => some (c :: lab, t)
      | none => none

/-- Matcher for `\*\*(.*?)\*\*` with replacement `<b>\1</b>` (second
substitution of `_convert_markdown_to_html`). -/
def tryBold : List Char → Option (List Char × List Char)
  | c :: d :: rest =>
    if c = '*' ∧ d = '*' then
      match findDStar rest with
      | some (lab, t) => some ('<' :: 'b' :: '>' :: (lab ++ ['<', '/', 'b', '>']), t)
      | none => none
    else none
  | _ => none

/-- Scanner for the lazy `(.*?)\*` tail of the italic regex: finds the
first `*`. -/
def findStar : List Char → Option (List Char × List Char)
  | [] => none
  | c :: rest =>
    if c = '*' then some ([], rest)
    else
      match findStar rest with
      | some (lab, t) => some (c :: lab, t)
      | none => none

/-- Matcher for `\*(.*?)\*` with replacement `<i>\1</i>` (third
substitution of `_convert_markdown_to_html`). -/
def tryItal : List Char → Option (List Char × List Char)
  | [] => none
  | c :: rest =>
    if c = '*' then
      match findStar rest with
      | some (lab, t) => some ('<' :: 'i' :: '>' :: (lab ++ ['<', '/', 'i', '>']), t)
      | none => none
    else none

/-- The link substitution pass of `_convert_markdown_to_html`. -/
def linkSub (s : List Char) : List Char :=
  scanSubF tryLink s.length s

/-- The bold substitution pass of `_convert_markdown_to_html`. -/
def boldSub (s : List Char) : List Char :=
  scanSubF tryBold s.length s

/-- The italic substitution pass of `_convert_markdown_to_html`. -/
def italSub (s : List Char) : List Char :=
  scanSubF tryItal s.length s

/-- `_convert_markdown_to_html` from `llm_manager.py`: links first, then
bold, then italic. -/
def convert_markdown_to_html (text : List Char) : List Char :=
  italSub (boldSub (linkSub text))

/-- C6: on `"[**bold link**](http://x)"` the converter resolves the link
first, producing an anchor whose href is `http://x` and whose label is the
bold tag wrapping `bold link`: nested bold markers inside the link label
do not defeat link detection. -/
theorem C6_markdown_link_before_bold :
    convert_markdown_to_html
      ['[', '*', '*', 'b', 'o', 'l', 'd', ' ', 'l', 'i', 'n', 'k', '*', '*',
       ']', '(', 'h', 't', 't', 'p', ':', '/', '/', 'x', ')'] =
    ['<', 'a', ' ', 'h', 'r', 'e', 'f', '=', '"', 'h', 't', 't', 'p', ':',
     '/', '/', 'x', '"', '>', '<', 'b', '>', 'b', 'o', 'l', 'd', ' ', 'l',
     'i', 'n', 'k', '<', '/', 'b', '>', '<', '/', 'a', '>'] := by
  decide


/-- The two LLM backends of `llm_manager.py`. -/
inductive Backend
  | deepseek
  | openai
deriving DecidableEq

/-- Environment for the `LLMManager` control flow: which clients are
configured (`DEEPSEEK_API_KEY` and `OPENAI_API_KEY`) and what each
backend's API call would produce (`none` models the call raising). The
prompt assembly (system prompt, search results) only changes the text sent
to the API and is absorbed into the oracle results. -/
structure LLMEnv where
  deepseek_client : Bool
  openai_key : Bool
  deepseekResult : Option (List Char)
  openaiResult : Option (List Char)

/-- `model_name` string `"deepseek"`. -/
def deepseekName : List Char := (r"deepseek").toList

/-- `model_name` string `"openai"`. -/
def openaiName : List Char := (r"openai").toList

mutual
/-- `LLMManager.get_deepseek_response`: with no DeepSeek client, delegate
to OpenAI; otherwise call DeepSeek and return the converted content, or
`None` when the call raises (the `except` branch — no fallback). Returns
the result together with the list of backends actually called; the fuel
makes the mutual recursion (which diverges in Python when both backends
keep failing) well-founded. -/
def get_deepseek_response (env : LLMEnv) : Nat → Option (List Char) × List Backend
  | 0 => (none, [])
  | fuel + 1 =>
    if env.deepseek_client = false then
      get_openai_response env fuel
    else
      match env.deepseekResult with
      | some content => (some (convert_markdown_to_html content), [Backend.deepseek])
      | none => (none, [Backend.deepseek])

/-- `LLMManager.get_openai_response`: with no OpenAI key, delegate to
DeepSeek; otherwise call OpenAI and return the converted content, or fall
back to DeepSeek when the call raises. -/
def get_openai_response (env : LLMEnv) : Nat → Option (List Char) × List Backend
  | 0 => (none, [])
  | fuel + 1 =>
    if env.openai_key = false then
      get_deepseek_response env fuel
    else
      match env.openaiResult with
      | some content => (some (convert_markdown_to_html content), [Backend.openai])
      | none =>
        ((get_deepseek_response env fuel).1,
          Backend.openai :: (get_deepseek_response env fuel).2)
end

/-- `LLMManager.get_response`. -/
def get_response (env : LLMEnv) (model_name : List Char) (fuel : Nat) :
    Option (List Char) × List Backend :=
  if model_name = deepseekName then
    if env.deepseek_client then get_deepseek_response env fuel
    else get_openai_response env fuel
  else if model_name = openaiName then
    get_openai_response env fuel
  else
    if env.deepseek_client then get_deepseek_response env fuel
    else get_openai_response env fuel

/-- Counterexample to C2: with the DeepSeek client configured, a failing
DeepSeek call and a healthy OpenAI backend, `get_response` returns null
having attempted only the DeepSeek backend — the secondary backend is
never tried. -/
theorem C2_no_secondary_attempt_cex :
    (get_response ⟨true, true, none, some ['o', 'k']⟩ deepseekName 5).1 = none ∧
    Backend.openai ∉ (get_response ⟨true, true, none, some ['o', 'k']⟩ deepseekName 5).2 ∧
    (get_response ⟨true, true, none, some ['o', 'k']⟩ deepseekName 5).2 =
      [Backend.deepseek] := by
  decide

/-- C2 amended: when the primary (DeepSeek) client is configured and its
call fails, `get_response` returns null after attempting only DeepSeek;
the OpenAI backend is used on the primary path only when the DeepSeek
client is unconfigured; and on the OpenAI path a call failure does fall
back to DeepSeek before returning. -/
theorem C2_fallback_amended (env : LLMEnv) (fuel : Nat) :
    (env.deepseek_client = true → env.deepseekResult = none →
      get_response env deepseekName (fuel + 1) = (none, [Backend.deepseek])) ∧
    (env.deepseek_client = false →
      get_response env deepseekName (fuel + 1) =
        get_openai_response env (fuel + 1)) ∧
    (env.openai_key = true → env.openaiResult = none →
      get_openai_response env (fuel + 2) =
        ((get_deepseek_response env (fuel + 1)).1,
          Backend.openai :: (get_deepseek_response env (fuel + 1)).2)) := by
  refine ⟨?_, ?_, ?_⟩
  · intro hc hr
    unfold get_response
    rw [if_pos rfl, if_pos hc]
    unfold get_deepseek_response
    rw [hc]
    simp only [Bool.true_eq_false, if_false, hr]
  · intro hc
    unfold get_response
    rw [if_pos rfl]
    rw [hc]
    simp only [Bool.false_eq_true, if_false]
  · intro hk hr
    unfold get_openai_response
    rw [hk]
    simp only [Bool.true_eq_false, if_false, hr]

/-- Witness for the amended C2 at a concrete environment. -/
theorem C2_fallback_amended_witness :
    get_response ⟨true, true, none, some ['o', 'k']⟩ deepseekName 1 =
      (none, [Backend.deepseek]) ∧
    get_openai_response ⟨true, true, none, none⟩ 2 =
      ((get_deepseek_response ⟨true, true, none, none⟩ 1).1,
        Backend.openai ::
          (get_deepseek_response ⟨true, true, none, none⟩ 1).2) :=
  ⟨(C2_fallback_amended ⟨true, true, none, some ['o', 'k']⟩ 0).1 rfl rfl,
   (C2_fallback_amended ⟨true, true, none, none⟩ 0).2.2 rfl rfl⟩


/-- Association-list lookup, modelling Python dict access (`d[k]`,
`k in d`). -/
def alookup {κ α : Type} [DecidableEq κ] : List (κ × α) → κ → Option α
  | [], _ => none
  | (k, v) :: rest, key => if k = key then some v else alookup rest key

/-- Association-list update, modelling Python dict assignment `d[k] = v`
(replace in place when present, append when absent). -/
def aset {κ α : Type} [DecidableEq κ] : List (κ × α) → κ → α → List (κ × α)
  | [], key, v => [(key, v)]
  | (k, w) :: rest, key, v =>
    if k = key then (k, v) :: rest else (k, w) :: aset rest key v

lemma alookup_aset_self {κ α : Type} [DecidableEq κ] (l : List (κ × α))
    (k : κ) (v : α) : alookup (aset l k v) k = some v := by
  induction l with
  | nil => simp [aset, alookup]
  | cons p rest ih =>
    obtain ⟨k2, w⟩ := p
    by_cases hk : k2 = k
    · simp [aset, alookup, hk]
    · simp [aset, alookup, hk, ih]

lemma alookup_aset_other {κ α : Type} [DecidableEq κ] (l : List (κ × α))
    (k k2 : κ) (v : α) (h : k2 ≠ k) :
    alookup (aset l k v) k2 = alookup l k2 := by
  induction l with
  | nil => simp [aset, alookup, Ne.symm h]
  | cons p rest ih =>
    obtain ⟨k3, w⟩ := p
    by_cases hk : k3 = k
    · subst hk
      simp [aset, alookup, Ne.symm h]
    · simp only [aset, if_neg hk, alookup]
      by_cases hk2 : k3 = k2
      · simp [hk2]
      · simp [hk2, ih]

lemma length_aset {κ α : Type} [DecidableEq κ] (l : List (κ × α)) (k : κ)
    (v : α) :
    (aset l k v).length =
      match alookup l k with
      | none => l.length + 1
      | some _ => l.length := by
  induction l with
  | nil => simp [aset, alookup]
  | cons p rest ih =>
    obtain ⟨k2, w⟩ := p
    by_cases hk : k2 = k
    · simp [aset, alookup, hk]
    · simp only [aset, if_neg hk, alookup, List.length_cons, ih]
      rcases alookup rest k with _ | u
      · simp
      · simp

/-- Speaker roles of a `Turn` in the per-chat history. -/
inductive Role
  | system
  | user
  | assistant
deriving DecidableEq

/-- One entry of the `user_history` list: `{"role": ..., "content": ...}`. -/
structure Turn where
  role : Role
  content : List Char
deriving DecidableEq

/-- The global `user_history` dict, keyed by the chat key
`f"{user_id}_{chat.id}"`; since both ids are integers and the first
contains no underscore, the formatted key is in bijection with the pair,
which is used directly. -/
def Store : Type := List ((Nat × Nat) × List Turn)

/-- `if chat_key not in user_history: user_history[chat_key] = []`. -/
def ensureKey (st : Store) (key : Nat × Nat) : Store :=
  match alookup st key with
  | none => aset st key []
  | some _ => st

/-- User-visible side effects of one handler run, in order. -/
inductive Eff
  | sendPlaceholder
  | llmCall
  | reply (text : List Char)
  | replyLong (chunks : List (List Char))
  | editPlaceholder (text : List Char)
  | finalizePlaceholder
  | welcomeReply
  | statsReply
  | topusersReply
deriving DecidableEq

/-- The fixed failure edit `"🙈 Не смог получить ответ, попробуй ещё раз."`. -/
def failMessage : List Char :=
  (r"🙈 Не смог получить ответ, попробуй ещё раз.").toList

/-- The fixed reply when the voice file path is missing. -/
def fileFailMessage : List Char :=
  (r"Не удалось получить голосовое сообщение.").toList

/-- The fixed "could not understand" reply of the voice handler. -/
def couldNotUnderstand : List Char :=
  (r"Извини, не удалось распознать твою речь. Попробуй, пожалуйста, еще раз.").toList

/-- The continuation prefix `"...продолжение:\n"` of `send_long_message`. -/
def contMarker : List Char :=
  (r"...продолжение:").toList ++ ['\n']

/-- The "more follows" suffix of `send_long_message`. -/
def moreMarker : List Char :=
  ['\n', '\n'] ++ (r"📄 <i>Продолжение следует...</i>").toList

/-- Matcher for one `^\s*#{1,6}\s*` (MULTILINE) heading occurrence of
`strip_markdown_headers`, applicable only at a line start: leading
whitespace, one to six `#`, trailing whitespace; also reports whether the
continuation position is again a line start (the consumed text ended with
a newline). -/
def tryHeader (s : List Char) : Option (List Char × Bool) :=
  match (s.dropWhile isSpace).takeWhile (fun c => c = '#') with
  | [] => none
  | hs =>
    some ((((s.dropWhile isSpace).drop (min hs.length 6)).dropWhile isSpace),
      match (((s.dropWhile isSpace).drop (min hs.length 6)).takeWhile isSpace).getLast? with
      | some c => c = '\n'
      | none => false)

/-- Scanner of `strip_markdown_headers`; the Boolean tracks whether the
current position is a line start (`^` with MULTILINE). Fuel equal to the
input length suffices since every step consumes at least one character. -/
def stripHdrAux : Nat → Bool → List Char → List Char
  | 0, _, s => s
  | _ + 1, _, [] => []
  | fuel + 1, atStart, c :: t =>
    if atStart then
      match tryHeader (c :: t) with
      | some (rest, atStart2) => stripHdrAux fuel atStart2 rest
      | none => c :: stripHdrAux fuel (c = '\n') t
    else c :: stripHdrAux fuel (c = '\n') t

/-- `strip_markdown_headers` from `main.py`. -/
def strip_markdown_headers (text : List Char) : List Char :=
  stripHdrAux text.length true text

/-- The chunk decoration of `send_long_message`: continuation prefix on
every chunk but the first, "more follows" suffix on every chunk but the
last. -/
def decorateParts (parts : List (List Char)) : List (List Char) :=
  parts.mapIdx (fun i p =>
    (if 0 < i then contMarker ++ p else p) ++
      (if i < parts.length - 1 then moreMarker else []))

/-- The ordered chunk texts sent by `send_long_message` (each is first
attempted as rich text; the per-chunk plain fallback depends on the
transport's response and is not part of the claims). -/
def send_long_message_parts (text : List Char) : List (List Char) :=
  decorateParts (split_safely (strip_markdown_headers text) 4000)

/-- `handle_text_message` from `main.py`, as a function of the store, the
chat key, the message text and the LLM outcome (`none` models
`fetch_llm_response` returning `None`); returns the new store and the
ordered user-visible effects. -/
def handle_text_message (st : Store) (key : Nat × Nat) (user_text : List Char)
    (llm : Option (List Char)) : Store × List Eff :=
  let st1 := ensureKey st key
  let st2 := aset st1 key ((alookup st1 key).getD [] ++ [⟨Role.user, user_text⟩])
  match llm with
  | some r =>
    if r = [] then
      (st2, [Eff.sendPlaceholder, Eff.llmCall, Eff.editPlaceholder failMessage,
        Eff.finalizePlaceholder])
    else
      (aset st2 key ((alookup st2 key).getD [] ++ [⟨Role.assistant, r⟩]),
       [Eff.sendPlaceholder, Eff.llmCall,
        Eff.replyLong (send_long_message_parts r), Eff.finalizePlaceholder])
  | none =>
    (st2, [Eff.sendPlaceholder, Eff.llmCall, Eff.editPlaceholder failMessage,
      Eff.finalizePlaceholder])

/-- `handle_voice_message` from `main.py`: the key is created (empty) at
the top of the `try` block, before the voice file is fetched and
transcribed; an empty transcription replies with the fixed message and
returns without touching the history further or calling the LLM. -/
def handle_voice_message (st : Store) (key : Nat × Nat) (fileOk : Bool)
    (transcribed : List Char) (llm : Option (List Char)) : Store × List Eff :=
  let st1 := ensureKey st key
  if fileOk = false then
    (st1, [Eff.sendPlaceholder, Eff.reply fileFailMessage,
      Eff.finalizePlaceholder])
  else if transcribed = [] then
    (st1, [Eff.sendPlaceholder, Eff.reply couldNotUnderstand,
      Eff.finalizePlaceholder])
  else
    let st2 := aset st1 key ((alookup st1 key).getD [] ++ [⟨Role.user, transcribed⟩])
    match llm with
    | some r =>
      if r = [] then
        (st2, [Eff.sendPlaceholder, Eff.llmCall, Eff.editPlaceholder failMessage,
          Eff.finalizePlaceholder])
      else
        (aset st2 key ((alookup st2 key).getD [] ++ [⟨Role.assistant, r⟩]),
         [Eff.sendPlaceholder, Eff.llmCall,
          Eff.replyLong (send_long_message_parts r), Eff.finalizePlaceholder])
    | none =>
      (st2, [Eff.sendPlaceholder, Eff.llmCall, Eff.editPlaceholder failMessage,
        Eff.finalizePlaceholder])

lemma ensureKey_lookup (st : Store) (key : Nat × Nat) :
    (alookup (ensureKey st key) key).getD [] = (alookup st key).getD [] := by
  unfold ensureKey
  rcases h : alookup st key with _ | v
  · rw [alookup_aset_self]
    rfl
  · rw [h]

lemma ensureKey_lookup_other (st : Store) (key k2 : Nat × Nat) (h : k2 ≠ key) :
    alookup (ensureKey st key) k2 = alookup st k2 := by
  unfold ensureKey
  rcases hl : alookup st key with _ | v
  · rw [alookup_aset_other _ _ _ _ h]
  · rfl

/-- C3: when the LLM returns null on a text message, the conversation's
history gains exactly the user's turn (and in particular no assistant
turn), and the placeholder is edited to the fixed failure message. -/
theorem C3_text_null_no_assistant_turn (st : Store) (key : Nat × Nat)
    (text : List Char) :
    alookup (handle_text_message st key text none).1 key =
      some ((alookup st key).getD [] ++ [⟨Role.user, text⟩]) ∧
    (handle_text_message st key text none).2 =
      [Eff.sendPlaceholder, Eff.llmCall, Eff.editPlaceholder failMessage,
        Eff.finalizePlaceholder] := by
  unfold handle_text_message
  refine ⟨?_, rfl⟩
  rw [alookup_aset_self, ensureKey_lookup]

/-- Counterexample to C4: a voice event with an empty transcription does
reply with the fixed message and makes no LLM call, but the Session Store
is NOT left unchanged: the key is created (with an empty history) before
transcription, so an empty store becomes a one-entry store. -/
theorem C4_voice_empty_transcript_cex :
    (handle_voice_message [] (1, 2) true [] none).2 =
      [Eff.sendPlaceholder, Eff.reply couldNotUnderstand,
        Eff.finalizePlaceholder] ∧
    Eff.llmCall ∉ (handle_voice_message [] (1, 2) true [] none).2 ∧
    (handle_voice_message [] (1, 2) true [] none).1 = [((1, 2), [])] ∧
    ([((1, 2), [])] : Store) ≠ [] := by
  refine ⟨rfl, by decide, rfl, by decide⟩

/-- C4 amended: on an empty transcription the user receives exactly the
fixed "could not understand" reply, no LLM call is made, and no turn is
appended: the key's history content is unchanged (created empty when
absent) and every other key is untouched. -/
theorem C4_voice_empty_transcript_amended (st : Store) (key : Nat × Nat)
    (llm : Option (List Char)) :
    (handle_voice_message st key true [] llm).2 =
      [Eff.sendPlaceholder, Eff.reply couldNotUnderstand,
        Eff.finalizePlaceholder] ∧
    Eff.llmCall ∉ (handle_voice_message st key true [] llm).2 ∧
    (alookup (handle_voice_message st key true [] llm).1 key).getD [] =
      (alookup st key).getD [] ∧
    (∀ k2, k2 ≠ key →
      alookup (handle_voice_message st key true [] llm).1 k2 = alookup st k2) := by
  refine ⟨rfl, ?_, ?_, ?_⟩
  · show Eff.llmCall ∉ [Eff.sendPlaceholder, Eff.reply couldNotUnderstand,
      Eff.finalizePlaceholder]
    decide
  · show (alookup (ensureKey st key) key).getD [] = (alookup st key).getD []
    exact ensureKey_lookup st key
  · intro k2 hk2
    show alookup (ensureKey st key) k2 = alookup st k2
    exact ensureKey_lookup_other st key k2 hk2

/-- Witness for the amended C4 at a concrete store and key. -/
theorem C4_voice_empty_transcript_amended_witness :
    (handle_voice_message [] (1, 2) true [] none).2 =
      [Eff.sendPlaceholder, Eff.reply couldNotUnderstand,
        Eff.finalizePlaceholder] ∧
    Eff.llmCall ∉ (handle_voice_message [] (1, 2) true [] none).2 ∧
    (alookup (handle_voice_message [] (1, 2) true [] none).1 (1, 2)).getD [] =
      (alookup ([] : Store) (1, 2)).getD [] ∧
    alookup (handle_voice_message [] (1, 2) true [] none).1 (3, 4) =
      alookup ([] : Store) (3, 4) := by
  obtain ⟨h1, h2, h3, h4⟩ := C4_voice_empty_transcript_amended [] (1, 2) none
  exact ⟨h1, h2, h3, h4 (3, 4) (by decide)⟩


/-- Python `str.lower()` restricted to the alphabets the handlers use
(ASCII letters, Cyrillic А–Я and Ё). -/
def pyLower (c : Char) : Char :=
  if 'A' ≤ c ∧ c ≤ 'Z' then Char.ofNat (c.toNat + 32)
  else if 'А' ≤ c ∧ c ≤ 'Я' then Char.ofNat (c.toNat + 32)
  else if c = 'Ё' then 'ё'
  else c

/-- `text.lower()` character-wise. -/
def lowerStr (s : List Char) : List Char :=
  s.map pyLower

/-- Filter of the `/time` handler:
`m.text.strip().lower() in {"/time", "time", "время"}`. -/
def timeCommandPred (text : List Char) : Bool :=
  lowerStr (pystrip text) = (r"/time").toList ||
  lowerStr (pystrip text) = (r"time").toList ||
  lowerStr (pystrip text) = (r"время").toList

/-- Case-insensitive literal-prefix consumption using `pyLower` (the
pattern is given in lowercase). -/
def dropCIL : List Char → List Char → Option (List Char)
  | [], s => some s
  | _ :: _, [] => none
  | p :: ps, c :: cs => if pyLower c = p then dropCIL ps cs else none

/-- First case-insensitive occurrence of `lit`; returns the rest of the
string after the occurrence. -/
def findLit (lit : List Char) : List Char → Option (List Char)
  | [] =>
    match dropCIL lit [] with
    | some r => some r
    | none => none
  | c :: t =>
    match dropCIL lit (c :: t) with
    | some r => some r
    | none => findLit lit t

/-- Whether the literals occur in order (with arbitrary non-newline gaps)
inside one line; this is the semantics of `lit1.*lit2` without DOTALL on a
newline-free line. -/
def containsSeq : List (List Char) → List Char → Bool
  | [], _ => true
  | lit :: lits, s =>
    match findLit lit s with
    | some rest => containsSeq lits rest
    | none => false

/-- `TIME_PAT.search(text)`: the regex
`(скол(ь|ъ)ко.*врем|како(е|й).*врем|сейчас.*врем|time.*phuket|current.*time.*phuket|время.*пхукет)`
with IGNORECASE. Without DOTALL the `.*` gaps cannot cross a newline, so a
match exists exactly when some line contains one alternative's literals in
order. -/
def timePatSearch (text : List Char) : Bool :=
  (splitOnNl text).any (fun line =>
    containsSeq [(r"сколько").toList, (r"врем").toList] line ||
    containsSeq [(r"сколъко").toList, (r"врем").toList] line ||
    containsSeq [(r"какое").toList, (r"врем").toList] line ||
    containsSeq [(r"какой").toList, (r"врем").toList] line ||
    containsSeq [(r"сейчас").toList, (r"врем").toList] line ||
    containsSeq [(r"time").toList, (r"phuket").toList] line ||
    containsSeq [(r"current").toList, (r"time").toList, (r"phuket").toList] line ||
    containsSeq [(r"время").toList, (r"пхукет").toList] line)

/-- Whether `lit` is a literal prefix of `s` (case-sensitive). -/
def startsWithLit (lit s : List Char) : Bool :=
  match dropExact lit s with
  | some _ => true
  | none => false

/-- The `CommandStart()` filter: the text is the `/start` command
(optionally with a bot mention or arguments). -/
def isStartCommand (text : List Char) : Bool :=
  text = (r"/start").toList ||
  startsWithLit ((r"/start").toList ++ [' ']) text ||
  startsWithLit ((r"/start").toList ++ ['@']) text

/-- The text-message handlers of `main.py`, in registration order (the
voice handler sits between `topusers` and the catch-all but only receives
voice events). -/
inductive Handler
  | timeCommand
  | timeQuestion
  | welcome
  | stats
  | topusers
  | textMessage
deriving DecidableEq

/-- Aiogram dispatch for a text message: the first registered handler
whose filter matches wins. -/
def dispatch_text (text : List Char) : Handler :=
  if timeCommandPred text then Handler.timeCommand
  else if timePatSearch text then Handler.timeQuestion
  else if isStartCommand text then Handler.welcome
  else if startsWithLit ((r"/stats").toList) text then Handler.stats
  else if startsWithLit ((r"/topusers").toList) text then Handler.topusers
  else Handler.textMessage

/-- The deterministic time reply
`f"Сейчас на Пхукете: <b>{phuket_now_str()}</b>"`, with the formatted
clock string as a parameter (real time is outside the embedding). -/
def timeAnswer (clock : List Char) : List Char :=
  (r"Сейчас на Пхукете: <b>").toList ++ clock ++ (r"</b>").toList

/-- One inbound text event run through the dispatcher: `time_command` and
`handle_time_question` reply directly with the current time and never
touch the store; `send_welcome` resets the key's history; the stats
handlers reply from analytics; everything else goes to
`handle_text_message`. -/
def run_text_dispatch (st : Store) (key : Nat × Nat) (text clock : List Char)
    (llm : Option (List Char)) : Store × List Eff :=
  match dispatch_text text with
  | Handler.timeCommand => (st, [Eff.reply (timeAnswer clock)])
  | Handler.timeQuestion => (st, [Eff.reply (timeAnswer clock)])
  | Handler.welcome => (aset st key [], [Eff.welcomeReply])
  | Handler.stats => (st, [Eff.statsReply])
  | Handler.topusers => (st, [Eff.topusersReply])
  | Handler.textMessage => handle_text_message st key text llm

/-- C9: any text matching `TIME_PAT` is dispatched to a time handler
(either the exact `/time` handler registered just before it, or
`handle_time_question`): the user gets the current-time reply directly,
no LLM call happens, and the session store is neither read nor modified. -/
theorem C9_time_question_direct (st : Store) (key : Nat × Nat)
    (text clock : List Char) (llm : Option (List Char))
    (h : timePatSearch text = true) :
    run_text_dispatch st key text clock llm =
      (st, [Eff.reply (timeAnswer clock)]) ∧
    (dispatch_text text = Handler.timeCommand ∨
      dispatch_text text = Handler.timeQuestion) := by
  by_cases hc : timeCommandPred text = true
  · have hd : dispatch_text text = Handler.timeCommand := by
      unfold dispatch_text
      rw [if_pos hc]
    exact ⟨by unfold run_text_dispatch; rw [hd], Or.inl hd⟩
  · have hd : dispatch_text text = Handler.timeQuestion := by
      unfold dispatch_text
      rw [if_neg hc, if_pos h]
    exact ⟨by unfold run_text_dispatch; rw [hd], Or.inr hd⟩

/-- Witness for C9 at the concrete texts `"сколько времени?"` and
`"what is the Time in Phuket"`. -/
theorem C9_time_question_direct_witness :
    run_text_dispatch [] (1, 2) ((r"сколько времени?").toList) ((r"12:00").toList)
        none = ([], [Eff.reply (timeAnswer ((r"12:00").toList))]) ∧
    run_text_dispatch [] (1, 2) ((r"what is the Time in Phuket").toList)
        ((r"12:00").toList) none =
      ([], [Eff.reply (timeAnswer ((r"12:00").toList))]) :=
  ⟨(C9_time_question_direct [] (1, 2) _ _ none (by decide)).1,
   (C9_time_question_direct [] (1, 2) _ _ none (by decide)).1⟩


/-- Per-user statistics record of `analytics.py` (`stats["users"][key]`);
`last_seen` is absent on creation and set on every tracked message. -/
structure UserStats where
  username : List Char
  first_seen : List Char
  messages_count : Nat
  voice_messages_count : Nat
  searches_triggered : Nat
  last_seen : Option (List Char)
deriving DecidableEq

/-- Per-day statistics record (`stats["daily_stats"][date]`);
`unique_users_count` is absent on creation and set at the end of
`track_user_message`. -/
structure DailyStats where
  messages : Nat
  voice_messages : Nat
  unique_users : List Nat
  searches : Nat
  unique_users_count : Option Nat
deriving DecidableEq

/-- The in-memory statistics document of `BotAnalytics` (`self.stats`);
user keys `str(user_id)` are in bijection with the ids and are modelled as
the ids, dates as strings. The JSON persistence (`_save_stats`) is I/O
outside the state transition. -/
structure Stats where
  total_users : Nat
  total_messages : Nat
  total_voice_messages : Nat
  total_searches : Nat
  users : List (Nat × UserStats)
  daily_stats : List (List Char × DailyStats)
  start_date : List Char
deriving DecidableEq

/-- The overall counters bump at the top of `track_user_message`. -/
def bumpTotals (st : Stats) (is_voice : Bool) : Stats :=
  { st with
    total_messages := st.total_messages + 1,
    total_voice_messages :=
      st.total_voice_messages + (if is_voice then 1 else 0) }

/-- `if user_key not in self.stats["users"]` block of
`track_user_message`: count a new user and create their record. -/
def ensureUser (st : Stats) (user_id : Nat) (username now : List Char) : Stats :=
  match alookup st.users user_id with
  | none =>
    { st with
      total_users := st.total_users + 1,
      users := aset st.users user_id ⟨username, now, 0, 0, 0, none⟩ }
  | some _ => st

/-- The per-user update block of `track_user_message`. -/
def updateUser (st : Stats) (user_id : Nat) (username now : List Char)
    (is_voice : Bool) : Stats :=
  match alookup st.users user_id with
  | none => st
  | some u =>
    { st with
      users := aset st.users user_id
        { u with
          messages_count := u.messages_count + 1,
          last_seen := some now,
          username := if username ≠ [] then username else u.username,
          voice_messages_count :=
            u.voice_messages_count + (if is_voice then 1 else 0) } }

/-- `if today not in self.stats["daily_stats"]` block of
`track_user_message`. -/
def ensureDaily (st : Stats) (today : List Char) : Stats :=
  match alookup st.daily_stats today with
  | none =>
    { st with daily_stats := aset st.daily_stats today ⟨0, 0, [], 0, none⟩ }
  | some _ => st

/-- The per-day update block of `track_user_message`: bump the counters,
append the user id to `unique_users` if absent, then set
`unique_users_count` to the list's length. -/
def updateDaily (st : Stats) (today : List Char) (user_id : Nat)
    (is_voice : Bool) : Stats :=
  match alookup st.daily_stats today with
  | none => st
  | some d =>
    { st with
      daily_stats := aset st.daily_stats today
        { d with
          messages := d.messages + 1,
          voice_messages := d.voice_messages + (if is_voice then 1 else 0),
          unique_users :=
            if user_id ∈ d.unique_users then d.unique_users
            else d.unique_users ++ [user_id],
          unique_users_count :=
            some (if user_id ∈ d.unique_users then d.unique_users
                  else d.unique_users ++ [user_id]).length } }

/-- `BotAnalytics.track_user_message` from `analytics.py` (`today` and
`now` stand for `date.today().isoformat()` and
`datetime.now().isoformat()`). -/
def track_user_message (st : Stats) (today now : List Char) (user_id : Nat)
    (username : List Char) (is_voice : Bool) : Stats :=
  updateDaily
    (ensureDaily
      (updateUser (ensureUser (bumpTotals st is_voice) user_id username now)
        user_id username now is_voice)
      today)
    today user_id is_voice

lemma updateUser_total_length (st : Stats) (user_id : Nat)
    (username now : List Char) (is_voice : Bool) :
    (updateUser st user_id username now is_voice).total_users = st.total_users ∧
    (updateUser st user_id username now is_voice).users.length = st.users.length := by
  unfold updateUser
  rcases h : alookup st.users user_id with _ | u
  · exact ⟨rfl, rfl⟩
  · refine ⟨rfl, ?_⟩
    show (aset st.users user_id _).length = st.users.length
    rw [length_aset, h]

lemma ensureUser_inv (st : Stats) (user_id : Nat) (username now : List Char)
    (h : st.total_users = st.users.length) :
    (ensureUser st user_id username now).total_users =
      (ensureUser st user_id username now).users.length := by
  unfold ensureUser
  rcases hu : alookup st.users user_id with _ | u
  · show st.total_users + 1 = (aset st.users user_id _).length
    rw [length_aset, hu, h]
  · exact h

lemma daily_stage_users (st : Stats) (today : List Char) (user_id : Nat)
    (is_voice : Bool) :
    (updateDaily (ensureDaily st today) today user_id is_voice).total_users =
      st.total_users ∧
    (updateDaily (ensureDaily st today) today user_id is_voice).users.length =
      st.users.length := by
  unfold ensureDaily updateDaily
  rcases h : alookup st.daily_stats today with _ | d
  · rcases h2 : alookup (aset st.daily_stats today ⟨0, 0, [], 0, none⟩) today
      with _ | d2
    · exact ⟨rfl, rfl⟩
    · exact ⟨rfl, rfl⟩
  · rw [h]
    exact ⟨rfl, rfl⟩

lemma user_stage_daily (st : Stats) (user_id : Nat) (username now : List Char)
    (is_voice : Bool) :
    (updateUser (ensureUser st user_id username now) user_id username now
      is_voice).daily_stats = st.daily_stats := by
  unfold ensureUser updateUser
  rcases h : alookup st.users user_id with _ | u
  · rcases h2 : alookup (aset st.users user_id ⟨username, now, 0, 0, 0, none⟩)
      user_id with _ | u2
    · rfl
    · rfl
  · dsimp only
    rw [h]

lemma daily_stage_result (st2 : Stats) (today : List Char) (user_id : Nat)
    (is_voice : Bool)
    (h2 : ∀ d, alookup st2.daily_stats today = some d → d.unique_users.Nodup) :
    ∃ d, alookup (updateDaily (ensureDaily st2 today) today user_id
        is_voice).daily_stats today = some d ∧
      d.unique_users.Nodup ∧
      d.unique_users_count = some d.unique_users.length := by
  unfold ensureDaily
  rcases h : alookup st2.daily_stats today with _ | d0
  · have hlk : alookup
        ({ st2 with daily_stats := aset st2.daily_stats today ⟨0, 0, [], 0, none⟩ } :
          Stats).daily_stats today = some ⟨0, 0, [], 0, none⟩ :=
      alookup_aset_self _ _ _
    unfold updateDaily
    rw [hlk]
    refine ⟨_, alookup_aset_self _ _ _, ?_, rfl⟩
    simp
  · unfold updateDaily
    rw [h]
    refine ⟨_, alookup_aset_self _ _ _, ?_, rfl⟩
    have hnd : d0.unique_users.Nodup := h2 d0 h
    by_cases hm : user_id ∈ d0.unique_users
    · simp only [if_pos hm]
      exact hnd
    · simp only [if_neg hm]
      rw [List.nodup_append]
      refine ⟨hnd, List.nodup_singleton _, ?_⟩
      intro a ha hb
      rw [List.mem_singleton] at hb
      subst hb
      exact hm ha

/-- C10: `track_user_message` preserves the statistics invariant: assuming
`total_users` counted the user map and today's `unique_users` had no
duplicates beforehand, then after the call `total_users` still equals the
number of user entries, today's `unique_users` is duplicate-free, and
`unique_users_count` equals its length. -/
theorem C10_track_user_message_invariant (st : Stats) (today now : List Char)
    (user_id : Nat) (username : List Char) (is_voice : Bool)
    (h1 : st.total_users = st.users.length)
    (h2 : ∀ d, alookup st.daily_stats today = some d → d.unique_users.Nodup) :
    (track_user_message st today now user_id username is_voice).total_users =
      (track_user_message st today now user_id username is_voice).users.length ∧
    ∃ d, alookup (track_user_message st today now user_id username
        is_voice).daily_stats today = some d ∧
      d.unique_users.Nodup ∧
      d.unique_users_count = some d.unique_users.length := by
  constructor
  · unfold track_user_message
    obtain ⟨ht, hl⟩ := daily_stage_users
      (updateUser (ensureUser (bumpTotals st is_voice) user_id username now)
        user_id username now is_voice) today user_id is_voice
    rw [ht, hl]
    obtain ⟨ht2, hl2⟩ := updateUser_total_length
      (ensureUser (bumpTotals st is_voice) user_id username now)
      user_id username now is_voice
    rw [ht2, hl2]
    exact ensureUser_inv (bumpTotals st is_voice) user_id username now h1
  · have hX : (updateUser (ensureUser (bumpTotals st is_voice) user_id username
        now) user_id username now is_voice).daily_stats = st.daily_stats :=
      user_stage_daily (bumpTotals st is_voice) user_id username now is_voice
    have h2X : ∀ d, alookup (updateUser (ensureUser (bumpTotals st is_voice)
        user_id username now) user_id username now is_voice).daily_stats today =
        some d → d.unique_users.Nodup := by
      intro d hd
      rw [hX] at hd
      exact h2 d hd
    exact daily_stage_result _ today user_id is_voice h2X

/-- Witness for C10 at the freshly initialized statistics document. -/
theorem C10_track_user_message_invariant_witness :
    (track_user_message ⟨0, 0, 0, 0, [], [], []⟩ ['d'] ['t'] 7 ['u'] false).total_users =
      (track_user_message ⟨0, 0, 0, 0, [], [], []⟩ ['d'] ['t'] 7 ['u']
        false).users.length ∧
    ∃ d, alookup (track_user_message ⟨0, 0, 0, 0, [], [], []⟩ ['d'] ['t'] 7 ['u']
        false).daily_stats ['d'] = some d ∧
      d.unique_users.Nodup ∧
      d.unique_users_count = some d.unique_users.length :=
  C10_track_user_message_invariant ⟨0, 0, 0, 0, [], [], []⟩ ['d'] ['t'] 7 ['u']
    false rfl (fun d hd => Option.noConfusion hd)

end Phuketer
